import Mathlib

/-!
# Verification of the `abspy` cell-complex construction

Shallow embedding of `src/abspy/complex.py` (class `CellComplex`): the
adaptive binary-space-partitioning builder (`construct_partition` with its
helpers `_get_best_plane` and `_split_planes`), the polygon finalizer
(`_init_polygons` / `construct_polygons`), the simplifier
(`simplify` / `collapse_convex_intersections` on top of networkx
`contracted_edge`), the surface extractors (`_get_intersection`,
`_sort_vertex_indices_by_angle`, `_orient_exact_polygon`,
`_orient_inexact_polygon`, `extract_soup`) and the labeling step
(`label_cells` on top of networkx `set_node_attributes`).

Conventions used throughout:
* Python floats and Sage rationals are both modelled as `ℚ` (every float is
  a rational; all the predicates the claims are about only use ring
  operations and comparisons on them).  The float-normalizing orientation
  helper is modelled over `ℝ`, idealizing float arithmetic as real
  arithmetic.
* Sage `Polyhedron` cells are modelled in H-representation: a cell is a
  `List (Plane ℚ)` of constraints, each constraint `p` meaning
  `0 ≤ p.a*x + p.b*y + p.c*z + p.d`; its semantics `semCell` is a subset of
  `Fin 3 → ℝ` and its volume is the Lebesgue `MeasureTheory.volume`.
* Where the Python code would raise (out-of-range index, failed `assert`),
  the embedding is total (`getD` with a default); all theorems below are
  stated with hypotheses keeping them on the non-raising paths, except
  where the raising path is exactly the claim under scrutiny.
-/

namespace Abspy

/-- A 3D vector / point with entries in `α`.  Models both the float inlier
points of a primitive (`point_groups` rows) and exact rational vertices. -/
structure V3 (α : Type) where
  x : α
  y : α
  z : α
  deriving DecidableEq, Repr

/-- A plane `a x + b y + c z + d = 0`; also used as a single half-space
constraint meaning `0 ≤ a x + b y + c z + d` (Sage `Polyhedron(ieqs=[[d,a,b,c]])`,
see `Primitive._inequalities` in `src/abspy/primitive.py`). -/
structure Plane (α : Type) where
  a : α
  b : α
  c : α
  d : α
  deriving DecidableEq, Repr

instance : Inhabited (Plane ℚ) := ⟨⟨0, 0, 0, 0⟩⟩

/-- Signed evaluation `a x + b y + c z + d` of a plane at a point — the
`which_side` quantity of `_get_best_plane` and `_split_planes`. -/
def peval (p : Plane ℚ) (v : V3 ℚ) : ℚ :=
  p.a * v.x + p.b * v.y + p.c * v.z + p.d

/-- The negated constraint: `negPlane p` holds exactly where `peval p ≤ 0`.
`Primitive._inequalities` builds the pair `(positive, negative)` this way. -/
def negPlane (p : Plane ℚ) : Plane ℚ :=
  ⟨-p.a, -p.b, -p.c, -p.d⟩

section BestPlane

/-! ## `_get_best_plane` (complex.py lines 540–574)

For each candidate position `i` with plane id `id`, the code computes, over
all other candidate ids `id2`, `which_side = (peval planes[id] · < 0)` on
`point_groups[id2]` and accumulates `left += which_side.all()`,
`right += (~which_side).all()`; it returns `i` immediately when
`left = |S|-1` or `right = |S|-1`, else the first argmax of `left*right`. -/

/-- `which_side.all()`: every point of the group lies strictly on the
negative side of the plane. -/
def allNeg (p : Plane ℚ) (g : List (V3 ℚ)) : Bool :=
  g.all fun v => decide (peval p v < 0)

/-- `(~which_side).all()`: every point of the group lies on the non-negative
(closed positive) side of the plane.  Note `~(s < 0)` is `0 ≤ s`, not `0 < s`. -/
def allNonneg (p : Plane ℚ) (g : List (V3 ℚ)) : Bool :=
  g.all fun v => !decide (peval p v < 0)

/-- The `left` counter accumulated by the inner loop of `_get_best_plane`
for the candidate with id `id` (the loop skips `id2 == id` by value). -/
def leftCount (ids : List ℕ) (planes : List (Plane ℚ)) (groups : List (List (V3 ℚ)))
    (id : ℕ) : ℕ :=
  (ids.filter fun id2 => id2 ≠ id).countP fun id2 =>
    allNeg (planes.getD id default) (groups.getD id2 [])

/-- The `right` counter accumulated by the inner loop of `_get_best_plane`. -/
def rightCount (ids : List ℕ) (planes : List (Plane ℚ)) (groups : List (List (V3 ℚ)))
    (id : ℕ) : ℕ :=
  (ids.filter fun id2 => id2 ≠ id).countP fun id2 =>
    allNonneg (planes.getD id default) (groups.getD id2 [])

/-- `np.argmax` scan: first index of the maximal value (ties keep the
earlier index), as used on `np.product(left_right, axis=1)`. -/
def argmaxAux (best : ℕ) (bestVal : ℕ) (k : ℕ) : List ℕ → ℕ
  | [] => best
  | v :: rest => if bestVal < v then argmaxAux k v (k + 1) rest
                 else argmaxAux best bestVal (k + 1) rest

/-- `np.argmax` over a list of values (`0` on the empty list, where numpy
would raise). -/
def argmaxList : List ℕ → ℕ
  | [] => 0
  | v :: rest => argmaxAux 0 v 1 rest

/-- The outer loop of `_get_best_plane` over the enumerated candidate list:
early-returns `.inl i` at the first position whose `left` or `right` counter
equals `|S| - 1`, otherwise collects all `left*right` products. -/
def bestPlaneLoop (ids : List ℕ) (planes : List (Plane ℚ)) (groups : List (List (V3 ℚ)))
    (acc : List ℕ) : List (ℕ × ℕ) → ℕ ⊕ List ℕ
  | [] => .inr acc
  | (i, id) :: rest =>
    let l := leftCount ids planes groups id
    let r := rightCount ids planes groups id
    if l = ids.length - 1 ∨ r = ids.length - 1 then .inl i
    else bestPlaneLoop ids planes groups (acc ++ [l * r]) rest

/-- `_get_best_plane(current_ids, planes, point_groups)`: the selected
position within `current_ids`. -/
def getBestPlane (ids : List ℕ) (planes : List (Plane ℚ))
    (groups : List (List (V3 ℚ))) : ℕ :=
  match bestPlaneLoop ids planes groups [] ids.enum with
  | .inl i => i
  | .inr lr => argmaxList lr

end BestPlane

section SplitPlanes

/-! ## `_split_planes` (complex.py lines 576–631)

The running arrays `planes`, `halfspaces`, `point_groups`,
`plane_split_count` of `construct_partition`, together with the global
counter `self.split_count`.  `halfspaces[i]` is the pair
`(positive, negative)` of constraints built by `Primitive._inequalities`:
the positive one is the plane itself (`0 ≤ a x + d`), the negative one its
negation. -/

/-- The mutable arrays threaded through `construct_partition`. -/
structure PState where
  planes : List (Plane ℚ)
  hspaces : List (Plane ℚ × Plane ℚ)
  groups : List (List (V3 ℚ))
  scounts : List ℕ
  nsplit : ℕ
  deriving DecidableEq, Repr

/-- Fallback half-space pair for an out-of-range lookup (where Python would
raise an `IndexError`); chosen well-formed so that the well-formedness
invariant `HSWF` is preserved by the total model. -/
def hsFallback : Plane ℚ × Plane ℚ :=
  (⟨0, 0, 1, 0⟩, negPlane ⟨0, 0, 1, 0⟩)

/-- Body of the `for id in current_ids` loop of `_split_planes`, acting on
the accumulator `(left_planes, right_planes, state)`. -/
def splitStep (bestId : ℕ) (bestPlane : Plane ℚ) (th : ℕ)
    (acc : List ℕ × List ℕ × PState) (id : ℕ) : List ℕ × List ℕ × PState :=
  let (lp, rp, st) := acc
  if id = bestId then acc
  else
    let g := st.groups.getD id []
    let leftPoints := g.filter fun v => decide (peval bestPlane v < 0)
    let rightPoints := g.filter fun v => decide (0 < peval bestPlane v)
    if g.length - leftPoints.length < th then
      (lp ++ [id], rp, { st with groups := st.groups.set id leftPoints })
    else if g.length - rightPoints.length < th then
      (lp, rp ++ [id], { st with groups := st.groups.set id rightPoints })
    else
      -- the plane straddles: append a clone per side retaining > th points
      -- (`left_planes.append(planes.shape[0])` records the length *before*
      -- the `vstack`, and the right clone sees the grown array)
      let lp' := if th < leftPoints.length then lp ++ [st.planes.length] else lp
      let st1 :=
        if th < leftPoints.length then
          { st with
              planes := st.planes ++ [st.planes.getD id default]
              hspaces := st.hspaces ++ [st.hspaces.getD id hsFallback]
              groups := st.groups ++ [leftPoints]
              scounts := st.scounts ++ [st.scounts.getD id 0 + 1] }
        else st
      let rp' := if th < rightPoints.length then rp ++ [st1.planes.length] else rp
      let st2 :=
        if th < rightPoints.length then
          { st1 with
              planes := st1.planes ++ [st1.planes.getD id default]
              hspaces := st1.hspaces ++ [st1.hspaces.getD id hsFallback]
              groups := st1.groups ++ [rightPoints]
              scounts := st1.scounts ++ [st1.scounts.getD id 0 + 1] }
        else st1
      (lp', rp', { st2 with nsplit := st2.nsplit + 1 })

/-- `_split_planes(best_plane_id, current_ids, …)`: distributes the other
candidate planes into the two half-spaces of the selected plane, cloning
the ones that straddle it.  Returns `(left_planes, right_planes, state')`. -/
def splitPlanes (bestPos : ℕ) (ids : List ℕ) (st : PState) (th : ℕ) :
    List ℕ × List ℕ × PState :=
  let bestId := ids.getD bestPos 0
  let bestPlane := st.planes.getD bestId default
  ids.foldl (splitStep bestId bestPlane th) ([], [], st)

end SplitPlanes

section Builder

/-! ## `construct_partition` (complex.py lines 808–961)

A cell (Sage `Polyhedron`) is kept in H-representation as the list of
half-space constraints it was built from: the initial bounding polytope
intersected with one half-space per split on the path from the root.  A
tree/graph node is the pair of its cell and its `plane_ids` array.  The
expansion visits only nodes with non-empty `plane_ids` (the
`tree.expand_tree` filter); a visited node is split by the selected plane,
the parent is removed from the graph and each child of dimension 3 is
added.  The Sage `dim() == 3` test is abstracted as a boolean oracle
`dimCheck`; the volume theorem only uses its soundness (a rejected cell has
zero volume, which is exactly what `dim ≠ 3` means for a convex subset of
`ℝ³`). -/

/-- A cell in H-representation: the conjunction of the constraints. -/
abbrev CellRep := List (Plane ℚ)

/-- A BSP tree / graph node: the cell and its candidate plane ids. -/
abbrev BNode := CellRep × List ℕ

/-- One expansion step of `construct_partition` on a visited node: select
the best plane (ordering `optimal` ↔ `ord = true`), split the candidate
planes, intersect the cell with the two half-spaces of the selected plane
and keep each child passing the dimension test. -/
def expandNode (dimCheck : CellRep → Bool) (th : ℕ) (ord : Bool)
    (st : PState) (cell : CellRep) (ids : List ℕ) : List BNode × PState :=
  let k := if ord then getBestPlane ids st.planes st.groups else 0
  let bestId := ids.getD k 0
  let sp := splitPlanes k ids st th
  let st' := sp.2.2
  let hs := st'.hspaces.getD bestId hsFallback
  let cellNegative : CellRep := cell ++ [hs.2]
  let cellPositive : CellRep := cell ++ [hs.1]
  let children :=
    (if dimCheck cellNegative then [((cellNegative, sp.1) : BNode)] else []) ++
    (if dimCheck cellPositive then [((cellPositive, sp.2.1) : BNode)] else [])
  (children, st')

/-- The expansion loop of `construct_partition`, fuel-indexed: `pending`
are the tree nodes not yet visited by `expand_tree`, `done` the nodes
already skipped by its filter (empty `plane_ids`, i.e. final cells).
`depth = true` pushes children in front (`Tree.DEPTH`), otherwise at the
back (`Tree.WIDTH`).  Returns the graph nodes at the end: the leaves
reached so far plus anything left unexpanded when the fuel runs out. -/
def runBuild (dimCheck : CellRep → Bool) (th : ℕ) (ord : Bool) (depth : Bool) :
    ℕ → PState → List BNode → List BNode → List BNode
  | 0, _, pending, done => done ++ pending
  | _ + 1, _, [], done => done
  | fuel + 1, st, (cell, ids) :: rest, done =>
    if ids.isEmpty then
      runBuild dimCheck th ord depth fuel st rest (done ++ [(cell, ids)])
    else
      let en := expandNode dimCheck th ord st cell ids
      let pending' := if depth then en.1 ++ rest else rest ++ en.1
      runBuild dimCheck th ord depth fuel en.2 pending' done

end Builder

section Semantics

/-! ## Semantics of cells

A constraint list denotes the set of real points satisfying every
constraint; the volume of a cell is the Lebesgue measure of that set
(the exact rational `volume()` of a Sage polyhedron computes exactly
this quantity). -/

open MeasureTheory

/-- The ambient space `ℝ³`. -/
abbrev E3 := Fin 3 → ℝ

/-- Real evaluation of a (rational) plane at a real point. -/
def pevalR (p : Plane ℚ) (v : E3) : ℝ :=
  (p.a : ℝ) * v 0 + (p.b : ℝ) * v 1 + (p.c : ℝ) * v 2 + (p.d : ℝ)

/-- The closed half-space of a single constraint. -/
def halfSpace (p : Plane ℚ) : Set E3 := {v | 0 ≤ pevalR p v}

/-- Semantics of a cell in H-representation. -/
def semCell : CellRep → Set E3
  | [] => Set.univ
  | p :: c => halfSpace p ∩ semCell c

/-- A plane with a non-zero normal vector (every genuine input plane). -/
def nonzeroNormal (p : Plane ℚ) : Prop := ¬(p.a = 0 ∧ p.b = 0 ∧ p.c = 0)

instance (p : Plane ℚ) : Decidable (nonzeroNormal p) := by
  unfold nonzeroNormal; infer_instance

theorem pevalR_negPlane (p : Plane ℚ) (v : E3) : pevalR (negPlane p) v = -pevalR p v := by
  simp only [pevalR, negPlane]
  push_cast
  ring

theorem continuous_pevalR (p : Plane ℚ) : Continuous (pevalR p) := by
  unfold pevalR
  fun_prop

theorem isClosed_halfSpace (p : Plane ℚ) : IsClosed (halfSpace p) :=
  isClosed_le continuous_const (continuous_pevalR p)

theorem semCell_append_singleton (c : CellRep) (p : Plane ℚ) :
    semCell (c ++ [p]) = semCell c ∩ halfSpace p := by
  induction c with
  | nil => simp [semCell]
  | cons q c ih =>
    simp only [List.cons_append, semCell, List.append_eq, ih, Set.inter_assoc]

theorem semCell_subset_of_append (c : CellRep) (p : Plane ℚ) :
    semCell (c ++ [p]) ⊆ semCell c := by
  rw [semCell_append_singleton]
  exact Set.inter_subset_left

/-- The linear part of `pevalR p`. -/
noncomputable def lmapOf (p : Plane ℚ) : E3 →ₗ[ℝ] ℝ :=
  (p.a : ℝ) • LinearMap.proj 0 + (p.b : ℝ) • LinearMap.proj 1 + (p.c : ℝ) • LinearMap.proj 2

theorem pevalR_eq_lmap (p : Plane ℚ) (v : E3) : pevalR p v = lmapOf p v + (p.d : ℝ) := by
  simp [pevalR, lmapOf]

theorem lmapOf_ne_zero (p : Plane ℚ) (hp : nonzeroNormal p) : ∃ u : E3, lmapOf p u ≠ 0 := by
  by_contra h
  push_neg at h
  refine hp ⟨?_, ?_, ?_⟩
  · have := h (Pi.single 0 1)
    simpa [lmapOf] using this
  · have := h (Pi.single 1 1)
    simpa [lmapOf] using this
  · have := h (Pi.single 2 1)
    simpa [lmapOf] using this

/-- The zero set of a plane with non-zero normal is Lebesgue-null:
it is a strict affine subspace of `ℝ³`. -/
theorem hyperplane_null (p : Plane ℚ) (hp : nonzeroNormal p) :
    volume {v : E3 | pevalR p v = 0} = 0 := by
  obtain ⟨u, hu⟩ := lmapOf_ne_zero p hp
  set L := lmapOf p with hL
  -- a point of the hyperplane
  set x₀ : E3 := (-(p.d : ℝ) / L u) • u with hx₀
  have hLx₀ : L x₀ = -(p.d : ℝ) := by
    rw [hx₀, LinearMap.map_smul, smul_eq_mul, div_mul_cancel₀ _ hu]
  set S : AffineSubspace ℝ E3 := AffineSubspace.mk' x₀ (LinearMap.ker L) with hS
  have hset : {v : E3 | pevalR p v = 0} = (S : Set E3) := by
    ext v
    simp only [Set.mem_setOf_eq, hS, SetLike.mem_coe, AffineSubspace.mem_mk'_iff_vsub_mem,
      vsub_eq_sub, LinearMap.mem_ker, map_sub, hLx₀, pevalR_eq_lmap, ← hL]
    constructor
    · intro h
      linarith
    · intro h
      linarith
  have hne : S ≠ ⊤ := by
    intro htop
    have hdir : (LinearMap.ker L) = ⊤ := by
      have := AffineSubspace.direction_mk' x₀ (LinearMap.ker L)
      rw [← hS] at this
      rw [← this, htop, AffineSubspace.direction_top]
    exact hu (by simpa using (Submodule.eq_top_iff'.mp hdir u))
  rw [hset]
  exact Measure.addHaar_affineSubspace volume S hne

/-- Splitting a set along a plane with non-zero normal preserves its
volume: the two closed sides overlap only in the null hyperplane. -/
theorem vol_split (A : Set E3) (p : Plane ℚ) (hp : nonzeroNormal p) :
    volume (A ∩ halfSpace p) + volume (A ∩ halfSpace (negPlane p)) = volume A := by
  have hmeas : MeasurableSet (halfSpace p) := (isClosed_halfSpace p).measurableSet
  have hdiff : A \ halfSpace p = A ∩ {v | pevalR p v < 0} := by
    ext v
    simp only [Set.mem_diff, Set.mem_inter_iff, Set.mem_setOf_eq, halfSpace, not_le]
  have hneg : A ∩ halfSpace (negPlane p) = A ∩ {v | pevalR p v ≤ 0} := by
    ext v
    simp only [Set.mem_inter_iff, halfSpace, Set.mem_setOf_eq, pevalR_negPlane, neg_nonneg]
  have hkey : volume (A ∩ {v | pevalR p v ≤ 0}) = volume (A \ halfSpace p) := by
    apply le_antisymm
    · have hsub : A ∩ {v | pevalR p v ≤ 0} ⊆ (A \ halfSpace p) ∪ {v | pevalR p v = 0} := by
        rintro v ⟨hv, hle⟩
        have hle' : pevalR p v ≤ 0 := hle
        rcases lt_or_eq_of_le hle' with h | h
        · exact Or.inl (by rw [hdiff]; exact Set.mem_inter hv h)
        · exact Or.inr h
      refine le_trans (measure_mono hsub) ?_
      refine le_trans (measure_union_le _ _) ?_
      rw [hyperplane_null p hp, add_zero]
    · apply measure_mono
      rw [hdiff]
      rintro v ⟨hv, hlt⟩
      have hlt' : pevalR p v < 0 := hlt
      exact Set.mem_inter hv (le_of_lt hlt')
  rw [hneg, hkey]
  exact measure_inter_add_diff A hmeas

/-- The interiors of the two closed sides of a split are disjoint. -/
theorem interior_split_disjoint (A : Set E3) (p : Plane ℚ) (hp : nonzeroNormal p) :
    interior (A ∩ halfSpace p) ∩ interior (A ∩ halfSpace (negPlane p)) = ∅ := by
  set U := interior (A ∩ halfSpace p) ∩ interior (A ∩ halfSpace (negPlane p)) with hU
  have hopen : IsOpen U := (isOpen_interior).inter isOpen_interior
  have hsub : U ⊆ {v : E3 | pevalR p v = 0} := by
    rintro v ⟨h1, h2⟩
    have hv1 : v ∈ halfSpace p := (Set.inter_subset_right (interior_subset h1))
    have hv2 : v ∈ halfSpace (negPlane p) := (Set.inter_subset_right (interior_subset h2))
    simp only [halfSpace, Set.mem_setOf_eq, pevalR_negPlane, neg_nonneg] at hv1 hv2
    exact le_antisymm hv2 hv1
  exact hopen.eq_empty_of_measure_zero
    (le_antisymm (le_trans (measure_mono hsub) (hyperplane_null p hp).le) (zero_le _))

end Semantics

section BuilderInvariants

open MeasureTheory

/-- A well-formed `halfspaces` row: the second entry is the negation of the
first and the plane has a non-zero normal (this is how
`Primitive._inequalities` builds every row from a genuine input plane). -/
def WFpair (pr : Plane ℚ × Plane ℚ) : Prop :=
  pr.2 = negPlane pr.1 ∧ nonzeroNormal pr.1

instance (pr : Plane ℚ × Plane ℚ) : Decidable (WFpair pr) := by
  unfold WFpair; infer_instance

/-- Every `halfspaces` row of the running state is well-formed. -/
def HSWF (st : PState) : Prop := ∀ pr ∈ st.hspaces, WFpair pr

instance (st : PState) : Decidable (HSWF st) := List.decidableBAll _ _

theorem WFpair_hsFallback : WFpair hsFallback := by
  constructor
  · rfl
  · intro h
    exact one_ne_zero h.2.2

/-- Well-formedness of a bare `halfspaces` list. -/
def HSWFl (l : List (Plane ℚ × Plane ℚ)) : Prop := ∀ pr ∈ l, WFpair pr

theorem HSWF_iff (st : PState) : HSWF st ↔ HSWFl st.hspaces := Iff.rfl

theorem HSWFl_append_wf {l : List (Plane ℚ × Plane ℚ)} {e : Plane ℚ × Plane ℚ}
    (h : HSWFl l) (he : WFpair e) : HSWFl (l ++ [e]) := by
  intro pr hpr
  rcases List.mem_append.mp hpr with hm | hm
  · exact h pr hm
  · rw [List.mem_singleton.mp hm]
    exact he

theorem getD_hspaces_wf {l : List (Plane ℚ × Plane ℚ)} (h : HSWFl l) (i : ℕ) :
    WFpair (l.getD i hsFallback) := by
  by_cases hi : i < l.length
  · rw [List.getD_eq_getElem _ _ hi]
    exact h _ (List.getElem_mem hi)
  · rw [List.getD_eq_getElem?_getD, List.getElem?_eq_none (le_of_not_lt hi)]
    exact WFpair_hsFallback

theorem splitStep_hswf (b : ℕ) (bp : Plane ℚ) (th : ℕ)
    (acc : List ℕ × List ℕ × PState) (id : ℕ) (h : HSWF acc.2.2) :
    HSWF (splitStep b bp th acc id).2.2 := by
  obtain ⟨lp, rp, st⟩ := acc
  rw [HSWF_iff] at h ⊢
  simp only [splitStep]
  split
  · exact h
  split
  · exact h
  split
  · exact h
  -- the straddling branch: up to two clones get appended
  split <;> split <;> dsimp only
  · exact HSWFl_append_wf (HSWFl_append_wf h (getD_hspaces_wf h id))
      (getD_hspaces_wf (HSWFl_append_wf h (getD_hspaces_wf h id)) id)
  · exact HSWFl_append_wf h (getD_hspaces_wf h id)
  · exact HSWFl_append_wf h (getD_hspaces_wf h id)
  · exact h

theorem splitPlanes_foldl_hswf (b : ℕ) (bp : Plane ℚ) (th : ℕ) :
    ∀ (ids : List ℕ) (acc : List ℕ × List ℕ × PState), HSWF acc.2.2 →
      HSWF (ids.foldl (splitStep b bp th) acc).2.2 := by
  intro ids
  induction ids with
  | nil => intro acc h; exact h
  | cons i rest ih =>
    intro acc h
    exact ih _ (splitStep_hswf b bp th acc i h)

theorem splitPlanes_hswf (k : ℕ) (ids : List ℕ) (st : PState) (th : ℕ)
    (h : HSWF st) : HSWF (splitPlanes k ids st th).2.2 :=
  splitPlanes_foldl_hswf _ _ th ids ([], [], st) h

/-- Total volume of the cells carried by a list of graph nodes. -/
noncomputable def nodeVols (l : List BNode) : ENNReal :=
  (l.map fun n => volume (semCell n.1)).sum

/-- Two nodes have cells with disjoint interiors. -/
def IntDisj (n m : BNode) : Prop :=
  interior (semCell n.1) ∩ interior (semCell m.1) = ∅

/-- All the nodes of a list have pairwise disjoint cell interiors. -/
def nodesDisj (l : List BNode) : Prop := l.Pairwise IntDisj

theorem IntDisj_symm {n m : BNode} (h : IntDisj n m) : IntDisj m n := by
  unfold IntDisj at *
  rw [Set.inter_comm]
  exact h

theorem IntDisj_mono {n n' m : BNode} (hsub : semCell n'.1 ⊆ semCell n.1)
    (h : IntDisj n m) : IntDisj n' m := by
  unfold IntDisj at *
  have : interior (semCell n'.1) ⊆ interior (semCell n.1) := interior_mono hsub
  exact Set.eq_empty_of_subset_empty (le_trans (Set.inter_subset_inter_left _ this) h.le)

theorem nodeVols_append (l₁ l₂ : List BNode) :
    nodeVols (l₁ ++ l₂) = nodeVols l₁ + nodeVols l₂ := by
  simp [nodeVols, List.sum_append]

theorem nodeVols_cons (n : BNode) (l : List BNode) :
    nodeVols (n :: l) = volume (semCell n.1) + nodeVols l := by
  simp [nodeVols]

theorem nodeVols_perm {l l' : List BNode} (h : l.Perm l') : nodeVols l = nodeVols l' :=
  (h.map _).sum_eq

theorem nodesDisj_perm {l l' : List BNode} (h : l.Perm l') (hd : nodesDisj l) :
    nodesDisj l' :=
  hd.perm h (fun h => IntDisj_symm h)

/-- The two candidate children of a split: each kept child is one closed
side of the parent cell; together they account for the parent's volume. -/
theorem children_vols (dc : CellRep → Bool)
    (hdc : ∀ c, dc c = false → volume (semCell c) = 0)
    (cell : CellRep) (hs : Plane ℚ × Plane ℚ) (hpr : WFpair hs)
    (lids rids : List ℕ) :
    nodeVols ((if dc (cell ++ [hs.2]) then [((cell ++ [hs.2] : CellRep), lids)] else []) ++
      (if dc (cell ++ [hs.1]) then [((cell ++ [hs.1] : CellRep), rids)] else [])) =
      volume (semCell cell) := by
  obtain ⟨hneg, hnz⟩ := hpr
  have e1 : semCell (cell ++ [hs.1]) = semCell cell ∩ halfSpace hs.1 :=
    semCell_append_singleton _ _
  have e2 : semCell (cell ++ [hs.2]) = semCell cell ∩ halfSpace (negPlane hs.1) := by
    rw [hneg]
    exact semCell_append_singleton _ _
  have key := vol_split (semCell cell) hs.1 hnz
  rw [← e1, ← e2] at key
  rcases Bool.eq_false_or_eq_true (dc (cell ++ [hs.2])) with h1 | h1 <;>
    rcases Bool.eq_false_or_eq_true (dc (cell ++ [hs.1])) with h2 | h2
  · simp [h1, h2, nodeVols, ← key, add_comm]
  · simp [h1, h2, nodeVols, ← key, hdc _ h2]
  · simp [h1, h2, nodeVols, ← key, hdc _ h1]
  · simp [h1, h2, nodeVols, ← key, hdc _ h1, hdc _ h2]

theorem children_subset (dc : CellRep → Bool) (cell : CellRep)
    (hs : Plane ℚ × Plane ℚ) (lids rids : List ℕ) :
    ∀ n ∈ ((if dc (cell ++ [hs.2]) then [((cell ++ [hs.2] : CellRep), lids)] else []) ++
      (if dc (cell ++ [hs.1]) then [((cell ++ [hs.1] : CellRep), rids)] else [])),
      semCell n.1 ⊆ semCell cell := by
  intro n hn
  rcases List.mem_append.mp hn with hm | hm
  · split at hm
    · rw [List.mem_singleton.mp hm]
      exact semCell_subset_of_append _ _
    · exact absurd hm (List.not_mem_nil n)
  · split at hm
    · rw [List.mem_singleton.mp hm]
      exact semCell_subset_of_append _ _
    · exact absurd hm (List.not_mem_nil n)

theorem children_pairwise (dc : CellRep → Bool) (cell : CellRep)
    (hs : Plane ℚ × Plane ℚ) (hpr : WFpair hs) (lids rids : List ℕ) :
    nodesDisj ((if dc (cell ++ [hs.2]) then [((cell ++ [hs.2] : CellRep), lids)] else []) ++
      (if dc (cell ++ [hs.1]) then [((cell ++ [hs.1] : CellRep), rids)] else [])) := by
  obtain ⟨hneg, hnz⟩ := hpr
  have e1 : semCell (cell ++ [hs.1]) = semCell cell ∩ halfSpace hs.1 :=
    semCell_append_singleton _ _
  have e2 : semCell (cell ++ [hs.2]) = semCell cell ∩ halfSpace (negPlane hs.1) := by
    rw [hneg]
    exact semCell_append_singleton _ _
  have hdisj : IntDisj ((cell ++ [hs.2] : CellRep), lids) ((cell ++ [hs.1] : CellRep), rids) := by
    show interior (semCell (cell ++ [hs.2])) ∩ interior (semCell (cell ++ [hs.1])) = ∅
    rw [e1, e2, Set.inter_comm]
    exact interior_split_disjoint (semCell cell) hs.1 hnz
  by_cases h1 : dc (cell ++ [hs.2]) <;> by_cases h2 : dc (cell ++ [hs.1]) <;>
    simp only [h1, h2, if_true, if_false, List.nil_append, List.append_nil,
      List.singleton_append, nodesDisj]
  · exact List.Pairwise.cons (fun m hm => (List.mem_singleton.mp hm) ▸ hdisj)
      (List.pairwise_singleton _ _)
  · exact List.pairwise_singleton _ _
  · exact List.pairwise_singleton _ _
  · exact List.Pairwise.nil

/-- Replacing one node of a partition by children contained in it keeps
all interiors pairwise disjoint. -/
theorem nodesDisj_replace (done rest ch : List BNode) (c : BNode)
    (hch : nodesDisj ch) (hsub : ∀ x ∈ ch, semCell x.1 ⊆ semCell c.1)
    (hp : nodesDisj (done ++ c :: rest)) :
    nodesDisj (done ++ (ch ++ rest)) := by
  unfold nodesDisj at *
  rw [List.pairwise_append] at hp
  obtain ⟨hdone, hcrest, hcross⟩ := hp
  rw [List.pairwise_cons] at hcrest
  obtain ⟨hc_rest, hrest⟩ := hcrest
  rw [List.pairwise_append]
  refine ⟨hdone, ?_, ?_⟩
  · rw [List.pairwise_append]
    refine ⟨hch, hrest, ?_⟩
    intro x hx y hy
    exact IntDisj_mono (hsub x hx) (hc_rest y hy)
  · intro a ha b hb
    rcases List.mem_append.mp hb with hbch | hbrest
    · have h1 : IntDisj a c := hcross a ha c (List.mem_cons_self c rest)
      exact IntDisj_symm (IntDisj_mono (hsub b hbch) (IntDisj_symm h1))
    · exact hcross a ha b (List.mem_cons_of_mem c hbrest)

theorem expandNode_hswf (dc : CellRep → Bool) (th : ℕ) (ord : Bool) (st : PState)
    (cell : CellRep) (ids : List ℕ) (h : HSWF st) :
    HSWF (expandNode dc th ord st cell ids).2 := by
  simp only [expandNode]
  exact splitPlanes_hswf _ _ _ _ h

theorem expandNode_vols (dc : CellRep → Bool) (th : ℕ) (ord : Bool) (st : PState)
    (cell : CellRep) (ids : List ℕ) (hwf : HSWF st)
    (hdc : ∀ c, dc c = false → volume (semCell c) = 0) :
    nodeVols (expandNode dc th ord st cell ids).1 = volume (semCell cell) := by
  simp only [expandNode]
  exact children_vols dc hdc cell _
    (getD_hspaces_wf (splitPlanes_hswf _ _ _ _ hwf) _) _ _

theorem expandNode_subset (dc : CellRep → Bool) (th : ℕ) (ord : Bool) (st : PState)
    (cell : CellRep) (ids : List ℕ) :
    ∀ n ∈ (expandNode dc th ord st cell ids).1, semCell n.1 ⊆ semCell cell := by
  simp only [expandNode]
  exact children_subset dc cell _ _ _

theorem expandNode_disj (dc : CellRep → Bool) (th : ℕ) (ord : Bool) (st : PState)
    (cell : CellRep) (ids : List ℕ) (hwf : HSWF st) :
    nodesDisj (expandNode dc th ord st cell ids).1 := by
  simp only [expandNode]
  exact children_pairwise dc cell _
    (getD_hspaces_wf (splitPlanes_hswf _ _ _ _ hwf) _) _ _

/-- Invariant of the expansion loop: every step preserves the total volume
of the graph nodes and the pairwise disjointness of their interiors. -/
theorem runBuild_invariant (dc : CellRep → Bool) (th : ℕ) (ord depth : Bool)
    (hdc : ∀ c, dc c = false → volume (semCell c) = 0) :
    ∀ (fuel : ℕ) (st : PState) (pending done : List BNode), HSWF st →
      nodeVols (runBuild dc th ord depth fuel st pending done) =
        nodeVols (done ++ pending) ∧
      (nodesDisj (done ++ pending) →
        nodesDisj (runBuild dc th ord depth fuel st pending done)) := by
  intro fuel
  induction fuel with
  | zero =>
    intro st pending done _
    exact ⟨rfl, fun h => h⟩
  | succ fuel ih =>
    intro st pending done hwf
    match pending with
    | [] =>
      refine ⟨by simp [runBuild], fun h => ?_⟩
      simp only [runBuild]
      simpa using h
    | (cell, ids) :: rest =>
      simp only [runBuild]
      rcases Bool.eq_false_or_eq_true ids.isEmpty with hids | hids
      · -- node with no candidate planes: a final cell, skipped by the filter
        rw [if_pos hids]
        have h := ih st rest (done ++ [(cell, ids)]) hwf
        have hlist : (done ++ [(cell, ids)]) ++ rest = done ++ (cell, ids) :: rest := by
          rw [List.append_assoc]
          rfl
        refine ⟨?_, fun hdisj => ?_⟩
        · rw [h.1, hlist]
        · exact h.2 (by rw [hlist]; exact hdisj)
      · -- visited node: expand it
        rw [if_neg (by simp [hids])]
        have hwf' := expandNode_hswf dc th ord st cell ids hwf
        have hlisteq : ∀ l : List BNode,
            nodeVols (done ++ l) = nodeVols done + nodeVols l := fun l =>
          nodeVols_append done l
        have hvols := expandNode_vols dc th ord st cell ids hwf hdc
        rcases Bool.eq_false_or_eq_true depth with hd | hd
        · -- Tree.DEPTH: children pushed in front
          rw [if_pos hd]
          have h := ih (expandNode dc th ord st cell ids).2
            ((expandNode dc th ord st cell ids).1 ++ rest) done hwf'
          refine ⟨?_, ?_⟩
          · rw [h.1, hlisteq, hlisteq, nodeVols_append, hvols, nodeVols_cons]
          · intro hdisj
            apply h.2
            exact nodesDisj_replace done rest _ (cell, ids)
              (expandNode_disj dc th ord st cell ids hwf)
              (expandNode_subset dc th ord st cell ids) hdisj
        · -- Tree.WIDTH: children pushed at the back
          rw [if_neg (by simp [hd])]
          have h := ih (expandNode dc th ord st cell ids).2
            (rest ++ (expandNode dc th ord st cell ids).1) done hwf'
          refine ⟨?_, ?_⟩
          · rw [h.1, hlisteq, hlisteq, nodeVols_append, nodeVols_cons, hvols,
              add_comm (nodeVols rest)]
          · intro hdisj
            apply h.2
            have hrepl := nodesDisj_replace done rest _ (cell, ids)
              (expandNode_disj dc th ord st cell ids hwf)
              (expandNode_subset dc th ord st cell ids) hdisj
            exact nodesDisj_perm
              ((List.perm_append_comm).append_left done) hrepl

end BuilderInvariants

section C1

open MeasureTheory

/-- **C1**: for every cell complex produced by the adaptive builder
`construct_partition` from a bounding polytope and a finite primitive list,
the sum of the exact volumes of the leaf cells remaining as graph nodes at
termination (and at every intermediate stage, hence for any fuel) equals
the exact volume of the initial bounding polytope, and distinct leaf cells
have pairwise disjoint interiors.  The hypotheses say exactly that the
`halfspaces` rows are the `(positive, negative)` pairs built by
`Primitive._inequalities` from planes with non-zero normals, and that the
Sage `dim() == 3` test only rejects cells of zero volume (a convex cell of
affine dimension `≤ 2` lies in a plane). -/
theorem C1_construct_partition_volume (dc : CellRep → Bool) (th : ℕ)
    (ord depth : Bool) (fuel : ℕ) (st : PState) (root : CellRep) (ids : List ℕ)
    (hwf : HSWF st)
    (hdc : ∀ c, dc c = false → volume (semCell c) = 0) :
    nodeVols (runBuild dc th ord depth fuel st [(root, ids)] []) =
      volume (semCell root) ∧
    nodesDisj (runBuild dc th ord depth fuel st [(root, ids)] []) := by
  have h := runBuild_invariant dc th ord depth hdc fuel st [(root, ids)] [] hwf
  constructor
  · rw [h.1]
    simp [nodeVols]
  · exact h.2 (by simp [nodesDisj])

/-- The unit box `[0,1]³` in H-representation (the bounding polytope of the
witness run). -/
def wBox : CellRep :=
  [⟨1, 0, 0, 0⟩, ⟨-1, 0, 0, 1⟩, ⟨0, 1, 0, 0⟩, ⟨0, -1, 0, 1⟩, ⟨0, 0, 1, 0⟩, ⟨0, 0, -1, 1⟩]

/-- A one-primitive initial state (the plane `2z - 1 = 0` with two
supporting points), used to instantiate the builder theorems. -/
def wSt : PState :=
  { planes := [⟨0, 0, 2, -1⟩]
    hspaces := [(⟨0, 0, 2, -1⟩, negPlane ⟨0, 0, 2, -1⟩)]
    groups := [[⟨0, 0, 0⟩, ⟨1, 1, 1⟩]]
    scounts := [0]
    nsplit := 0 }

/-- Witness for C1: a concrete run of the builder on the unit box with one
splitting plane. -/
theorem C1_construct_partition_volume_witness :
    nodeVols (runBuild (fun _ => true) 1 true true 3 wSt [(wBox, [0])] []) =
      volume (semCell wBox) ∧
    nodesDisj (runBuild (fun _ => true) 1 true true 3 wSt [(wBox, [0])] []) :=
  C1_construct_partition_volume (fun _ => true) 1 true true 3 wSt wBox [0]
    (by decide) (fun c h => by simp at h)

end C1

section C2

/-! ## C2: correctness of `_get_best_plane`

The declarative counters: `leftCount`/`rightCount` are what the code's
inner loop accumulates (note the right side is *non-strict*: numpy's
`~(which_side < 0)` is `which_side >= 0`).  `rightCountStrict` is the
spec's claimed strict version. -/

/-- All points strictly on the positive side — the side test the claim
asserts for `R(i)` (`0 < signed distance`). -/
def allPos (p : Plane ℚ) (g : List (V3 ℚ)) : Bool :=
  g.all fun v => decide (0 < peval p v)

/-- The claim's strict right counter. -/
def rightCountStrict (ids : List ℕ) (planes : List (Plane ℚ))
    (groups : List (List (V3 ℚ))) (id : ℕ) : ℕ :=
  (ids.filter fun id2 => id2 ≠ id).countP fun id2 =>
    allPos (planes.getD id default) (groups.getD id2 [])

/-- The code's immediate-return condition at candidate position `i`. -/
def lrCond (ids : List ℕ) (planes : List (Plane ℚ)) (groups : List (List (V3 ℚ)))
    (i : ℕ) : Prop :=
  leftCount ids planes groups (ids.getD i 0) = ids.length - 1 ∨
  rightCount ids planes groups (ids.getD i 0) = ids.length - 1

/-- The claim's immediate-return condition (strict positive side). -/
def lrCondStrict (ids : List ℕ) (planes : List (Plane ℚ))
    (groups : List (List (V3 ℚ))) (i : ℕ) : Prop :=
  leftCount ids planes groups (ids.getD i 0) = ids.length - 1 ∨
  rightCountStrict ids planes groups (ids.getD i 0) = ids.length - 1

/-- The `left*right` product scored at candidate position `i`. -/
def lrScore (ids : List ℕ) (planes : List (Plane ℚ)) (groups : List (List (V3 ℚ)))
    (i : ℕ) : ℕ :=
  leftCount ids planes groups (ids.getD i 0) * rightCount ids planes groups (ids.getD i 0)

theorem argmaxAux_spec (g : List ℕ) :
    ∀ (d k best bestVal : ℕ), k + d = g.length → best < k →
      g.getD best 0 = bestVal →
      (∀ j, j < k → g.getD j 0 ≤ bestVal) →
      (∀ j, j < best → g.getD j 0 < bestVal) →
      argmaxAux best bestVal k (g.drop k) < g.length ∧
      (∀ j, j < g.length → g.getD j 0 ≤ g.getD (argmaxAux best bestVal k (g.drop k)) 0) ∧
      (∀ j, j < argmaxAux best bestVal k (g.drop k) →
        g.getD j 0 < g.getD (argmaxAux best bestVal k (g.drop k)) 0) := by
  intro d
  induction d with
  | zero =>
    intro k best bestVal hk hbk hbv hle hlt
    rw [Nat.add_zero] at hk
    rw [List.drop_eq_nil_of_le hk.ge]
    simp only [argmaxAux]
    subst hk
    exact ⟨hbk, fun j hj => hbv ▸ hle j hj, fun j hj => hbv ▸ hlt j hj⟩
  | succ d ih =>
    intro k best bestVal hk hbk hbv hle hlt
    have hklen : k < g.length := by omega
    rw [List.drop_eq_getElem_cons hklen]
    simp only [argmaxAux]
    by_cases hc : bestVal < g[k]
    · rw [if_pos hc]
      have hgk : g.getD k 0 = g[k] := List.getD_eq_getElem g 0 hklen
      refine ih (k + 1) k g[k] (by omega) (Nat.lt_succ_self k) hgk ?_ ?_
      · intro j hj
        rcases Nat.lt_succ_iff_lt_or_eq.mp hj with hj' | hj'
        · exact le_trans (hle j hj') (le_of_lt hc)
        · subst hj'
          exact hgk.le
      · intro j hj
        exact lt_of_le_of_lt (hle j hj) hc
    · rw [if_neg hc]
      refine ih (k + 1) best bestVal (by omega) (by omega) hbv ?_ hlt
      intro j hj
      rcases Nat.lt_succ_iff_lt_or_eq.mp hj with hj' | hj'
      · exact hle j hj'
      · subst hj'
        rw [List.getD_eq_getElem g 0 hklen]
        exact le_of_not_lt hc

theorem argmaxList_spec (g : List ℕ) (h : g ≠ []) :
    argmaxList g < g.length ∧
    (∀ j, j < g.length → g.getD j 0 ≤ g.getD (argmaxList g) 0) ∧
    (∀ j, j < argmaxList g → g.getD j 0 < g.getD (argmaxList g) 0) := by
  match g, h with
  | v :: rest, _ =>
    have hdrop : rest = (v :: rest).drop 1 := rfl
    simp only [argmaxList]
    rw [hdrop]
    exact argmaxAux_spec (v :: rest) rest.length 1 0 v
      (by simp [List.length_cons, Nat.add_comm]) Nat.one_pos rfl
      (fun j hj => by interval_cases j; exact le_refl _)
      (fun j hj => absurd hj (Nat.not_lt_zero j))

theorem bestPlaneLoop_spec (ids : List ℕ) (planes : List (Plane ℚ))
    (groups : List (List (V3 ℚ))) :
    ∀ (d m : ℕ) (acc : List ℕ), m + d = ids.length →
      acc = (List.range m).map (lrScore ids planes groups) →
      (∀ j, j < m → ¬ lrCond ids planes groups j) →
      (∀ i, bestPlaneLoop ids planes groups acc (List.enumFrom m (ids.drop m)) = .inl i →
        i < ids.length ∧ lrCond ids planes groups i ∧
          ∀ j, j < i → ¬ lrCond ids planes groups j) ∧
      (∀ lr, bestPlaneLoop ids planes groups acc (List.enumFrom m (ids.drop m)) = .inr lr →
        lr = (List.range ids.length).map (lrScore ids planes groups) ∧
          ∀ j, j < ids.length → ¬ lrCond ids planes groups j) := by
  intro d
  induction d with
  | zero =>
    intro m acc hm hacc hnone
    rw [Nat.add_zero] at hm
    rw [List.drop_eq_nil_of_le hm.ge]
    simp only [List.enumFrom, bestPlaneLoop]
    constructor
    · intro i hi
      cases hi
    · intro lr hlr
      cases hlr
      subst hm
      exact ⟨hacc, hnone⟩
  | succ d ih =>
    intro m acc hm hacc hnone
    have hmlen : m < ids.length := by omega
    rw [List.drop_eq_getElem_cons hmlen]
    simp only [List.enumFrom, bestPlaneLoop]
    have hgd : ids.getD m 0 = ids[m] := List.getD_eq_getElem ids 0 hmlen
    by_cases hc : leftCount ids planes groups ids[m] = ids.length - 1 ∨
        rightCount ids planes groups ids[m] = ids.length - 1
    · rw [if_pos hc]
      constructor
      · intro i hi
        cases hi
        refine ⟨hmlen, ?_, hnone⟩
        rw [lrCond, hgd]
        exact hc
      · intro lr hlr
        cases hlr
    · rw [if_neg hc]
      have hacc' : acc ++ [leftCount ids planes groups ids[m] *
          rightCount ids planes groups ids[m]] =
          (List.range (m + 1)).map (lrScore ids planes groups) := by
        rw [List.range_succ, List.map_append, ← hacc, List.map_singleton, lrScore, hgd]
      have hnone' : ∀ j, j < m + 1 → ¬ lrCond ids planes groups j := by
        intro j hj
        rcases Nat.lt_succ_iff_lt_or_eq.mp hj with hj' | hj'
        · exact hnone j hj'
        · subst hj'
          rw [lrCond, hgd]
          exact hc
      exact ih (m + 1) _ (by omega) hacc' hnone'

/-- **C2** (amended): in best-plane scoring with ordering `optimal`, `L(i)`
counts the other groups entirely strictly on the negative side and `R(i)`
the groups entirely on the *non-negative* side (numpy's `~(side < 0)`); if
some candidate reaches `L = |S|-1` or `R = |S|-1` the first such position
is returned immediately, and otherwise the first position maximizing
`L·R` is returned. -/
theorem C2_get_best_plane (ids : List ℕ) (planes : List (Plane ℚ))
    (groups : List (List (V3 ℚ))) (hne : ids ≠ []) :
    getBestPlane ids planes groups < ids.length ∧
    ((lrCond ids planes groups (getBestPlane ids planes groups) ∧
      ∀ j, j < getBestPlane ids planes groups → ¬ lrCond ids planes groups j) ∨
     ((∀ j, j < ids.length → ¬ lrCond ids planes groups j) ∧
      (∀ j, j < ids.length →
        lrScore ids planes groups j ≤ lrScore ids planes groups (getBestPlane ids planes groups)) ∧
      (∀ j, j < getBestPlane ids planes groups →
        lrScore ids planes groups j < lrScore ids planes groups (getBestPlane ids planes groups)))) := by
  have hspec := bestPlaneLoop_spec ids planes groups ids.length 0 [] (by omega)
    (by simp) (fun j hj => absurd hj (Nat.not_lt_zero j))
  have henum : List.enumFrom 0 (ids.drop 0) = ids.enum := by
    rw [List.drop_zero]
    rfl
  rw [henum] at hspec
  unfold getBestPlane
  cases heq : bestPlaneLoop ids planes groups [] ids.enum with
  | inl i =>
    obtain ⟨hi, hcond, hfirst⟩ := hspec.1 i heq
    exact ⟨hi, Or.inl ⟨hcond, hfirst⟩⟩
  | inr lr =>
    obtain ⟨hlr, hnone⟩ := hspec.2 lr heq
    subst hlr
    set lr := (List.range ids.length).map (lrScore ids planes groups) with hlr
    have hlen : lr.length = ids.length := by
      rw [hlr, List.length_map, List.length_range]
    have hlrne : lr ≠ [] := by
      intro hnil
      rw [hnil] at hlen
      exact hne (List.eq_nil_of_length_eq_zero hlen.symm)
    obtain ⟨hmax_lt, hmax_le, hmax_first⟩ := argmaxList_spec lr hlrne
    have hget : ∀ j, j < ids.length → lr.getD j 0 = lrScore ids planes groups j := by
      intro j hj
      have hj' : j < lr.length := by rw [hlen]; exact hj
      rw [List.getD_eq_getElem lr 0 hj']
      simp only [hlr, List.getElem_map, List.getElem_range]
    rw [hlen] at hmax_lt
    refine ⟨hmax_lt, Or.inr ⟨hnone, ?_, ?_⟩⟩
    · intro j hj
      have := hmax_le j (by rw [hlen]; exact hj)
      rwa [hget j hj, hget _ hmax_lt] at this
    · intro j hj
      have := hmax_first j hj
      rwa [hget j (lt_trans hj hmax_lt), hget _ hmax_lt] at this

/-- The concrete input refuting C2 as stated: plane 0 is `z = 0`,
plane 1 is `x = 0`; group 0 is the single point `(-1,0,0)`, group 1 the
single point `(0,0,0)` — which lies *on* plane 0. -/
def cPlanesC2 : List (Plane ℚ) := [⟨0, 0, 1, 0⟩, ⟨1, 0, 0, 0⟩]

/-- The point groups of the C2 counterexample. -/
def cGroupsC2 : List (List (V3 ℚ)) := [[⟨-1, 0, 0⟩], [⟨0, 0, 0⟩]]

/-- **C2** (counterexample): with the strict reading of `R(i)` the claim
demands that candidate 1 be returned (it is the first — and only — index
whose strict condition `L = |S|-1` or `R = |S|-1` holds, candidate 0
failing both), yet the code returns 0: its non-strict `R(0)` counts the
group whose point lies exactly on plane 0. -/
theorem C2_counterexample :
    getBestPlane [0, 1] cPlanesC2 cGroupsC2 = 0 ∧
    ¬ lrCondStrict [0, 1] cPlanesC2 cGroupsC2 0 ∧
    lrCondStrict [0, 1] cPlanesC2 cGroupsC2 1 := by
  refine ⟨?_, ?_, ?_⟩
  · simp [getBestPlane, bestPlaneLoop, leftCount, rightCount, allNeg, allNonneg,
      peval, cPlanesC2, cGroupsC2, List.enum, List.enumFrom, List.countP,
      List.countP.go, List.filter]
  · simp [lrCondStrict, leftCount, rightCountStrict, allNeg, allPos, peval,
      cPlanesC2, cGroupsC2, List.countP, List.countP.go, List.filter]
  · apply Or.inl
    simp [leftCount, allNeg, peval, cPlanesC2, cGroupsC2, List.countP,
      List.countP.go, List.filter]

/-- Witness for C2: the amended characterization instantiated on the
counterexample input (the early-return branch fires at position 0). -/
theorem C2_get_best_plane_witness :
    getBestPlane [0, 1] cPlanesC2 cGroupsC2 < 2 ∧
    ((lrCond [0, 1] cPlanesC2 cGroupsC2 (getBestPlane [0, 1] cPlanesC2 cGroupsC2) ∧
      ∀ j, j < getBestPlane [0, 1] cPlanesC2 cGroupsC2 → ¬ lrCond [0, 1] cPlanesC2 cGroupsC2 j) ∨
     ((∀ j, j < 2 → ¬ lrCond [0, 1] cPlanesC2 cGroupsC2 j) ∧
      (∀ j, j < 2 →
        lrScore [0, 1] cPlanesC2 cGroupsC2 j ≤
          lrScore [0, 1] cPlanesC2 cGroupsC2 (getBestPlane [0, 1] cPlanesC2 cGroupsC2)) ∧
      (∀ j, j < getBestPlane [0, 1] cPlanesC2 cGroupsC2 →
        lrScore [0, 1] cPlanesC2 cGroupsC2 j <
          lrScore [0, 1] cPlanesC2 cGroupsC2 (getBestPlane [0, 1] cPlanesC2 cGroupsC2)))) :=
  C2_get_best_plane [0, 1] cPlanesC2 cGroupsC2 (by simp)

end C2

section C4

/-! ## C4: cloning behaviour of `_split_planes` on a crossed primitive -/

/-- The point groups on each strict side of a plane partition the group
exactly when no point lies on the plane. -/
theorem filter_sides_length (bp : Plane ℚ) (g : List (V3 ℚ))
    (h : ∀ v ∈ g, peval bp v ≠ 0) :
    (g.filter fun v => decide (peval bp v < 0)).length +
      (g.filter fun v => decide (0 < peval bp v)).length = g.length := by
  induction g with
  | nil => rfl
  | cons v rest ih =>
    have hv : peval bp v ≠ 0 := h v (List.mem_cons_self v rest)
    have ih' := ih fun w hw => h w (List.mem_cons_of_mem v hw)
    rcases lt_trichotomy (peval bp v) 0 with hlt | heq | hgt
    · rw [List.filter_cons, List.filter_cons,
        if_pos (by simp only [decide_eq_true_eq]; exact hlt),
        if_neg (by simp only [decide_eq_true_eq]; exact not_lt.mpr hlt.le)]
      simp only [List.length_cons]
      omega
    · exact absurd heq hv
    · rw [List.filter_cons, List.filter_cons,
        if_neg (by simp only [decide_eq_true_eq]; exact not_lt.mpr hgt.le),
        if_pos (by simp only [decide_eq_true_eq]; exact hgt)]
      simp only [List.length_cons]
      omega

/-- **C4** (amended): processing a crossed primitive (`th ≤ n - nL` and
`th ≤ n - nR`, the `else` branch of `_split_planes`) increments the split
counter by exactly one — so the reported total `len(planes) + split_count`
grows by one — while the planes array gains one clone per side retaining
more than `th` points, and the appended clone point groups are exactly the
strict-side sublists; when additionally both sides hold more than `th`
points and no point lies on the plane, the clone group sizes sum to the
original group's size. -/
theorem C4_split_planes_crossed (bestId : ℕ) (bp : Plane ℚ) (th : ℕ)
    (lp rp : List ℕ) (st : PState) (id : ℕ) (hid : id ≠ bestId)
    (hL : th ≤ (st.groups.getD id []).length -
      ((st.groups.getD id []).filter fun v => decide (peval bp v < 0)).length)
    (hR : th ≤ (st.groups.getD id []).length -
      ((st.groups.getD id []).filter fun v => decide (0 < peval bp v)).length) :
    (splitStep bestId bp th (lp, rp, st) id).2.2.nsplit = st.nsplit + 1 ∧
    (splitStep bestId bp th (lp, rp, st) id).2.2.planes.length =
      st.planes.length +
        ((if th < ((st.groups.getD id []).filter fun v => decide (peval bp v < 0)).length
          then 1 else 0) +
         (if th < ((st.groups.getD id []).filter fun v => decide (0 < peval bp v)).length
          then 1 else 0)) ∧
    ((splitStep bestId bp th (lp, rp, st) id).2.2.groups.drop st.groups.length).map
        List.length =
      ((if th < ((st.groups.getD id []).filter fun v => decide (peval bp v < 0)).length
        then [((st.groups.getD id []).filter fun v => decide (peval bp v < 0)).length]
        else []) ++
       (if th < ((st.groups.getD id []).filter fun v => decide (0 < peval bp v)).length
        then [((st.groups.getD id []).filter fun v => decide (0 < peval bp v)).length]
        else [])) ∧
    ((∀ v ∈ st.groups.getD id [], peval bp v ≠ 0) →
      th < ((st.groups.getD id []).filter fun v => decide (peval bp v < 0)).length →
      th < ((st.groups.getD id []).filter fun v => decide (0 < peval bp v)).length →
      ((st.groups.getD id []).filter fun v => decide (peval bp v < 0)).length +
        ((st.groups.getD id []).filter fun v => decide (0 < peval bp v)).length =
        (st.groups.getD id []).length) := by
  simp only [splitStep]
  rw [if_neg hid, if_neg (by omega), if_neg (by omega)]
  by_cases h1 : th <
      ((st.groups.getD id []).filter fun v => decide (peval bp v < 0)).length <;>
    by_cases h2 : th <
      ((st.groups.getD id []).filter fun v => decide (0 < peval bp v)).length
  · simp only [if_pos h1, if_pos h2]
    refine ⟨by trivial, ?_, ?_, fun hz _ _ => filter_sides_length bp _ hz⟩
    · try dsimp only
      simp only [List.length_append, List.length_singleton]
      try omega
    · try dsimp only
      rw [List.append_assoc, List.drop_left]
      rfl
  · simp only [if_pos h1, if_neg h2]
    refine ⟨by trivial, ?_, ?_, fun hz _ h2' => absurd h2' h2⟩
    · try dsimp only
      simp only [List.length_append, List.length_singleton]
      try omega
    · try dsimp only
      rw [List.drop_left]
      rfl
  · simp only [if_neg h1, if_pos h2]
    refine ⟨by trivial, ?_, ?_, fun hz h1' _ => absurd h1' h1⟩
    · try dsimp only
      simp only [List.length_append, List.length_singleton]
      try omega
    · try dsimp only
      rw [List.drop_left]
      rfl
  · simp only [if_neg h1, if_neg h2]
    refine ⟨by trivial, ?_, ?_, fun hz h1' _ => absurd h1' h1⟩
    · try dsimp only
      omega
    · try dsimp only
      rw [List.drop_length]
      rfl

/-- The concrete `_split_planes` input refuting C4 as stated: the best
plane is `z = 0`; the other primitive's group holds one point strictly
below, two strictly above, and one point on the plane. -/
def c4St : PState :=
  { planes := [⟨0, 0, 1, 0⟩, ⟨1, 0, 0, -5⟩]
    hspaces := [(⟨0, 0, 1, 0⟩, negPlane ⟨0, 0, 1, 0⟩),
                (⟨1, 0, 0, -5⟩, negPlane ⟨1, 0, 0, -5⟩)]
    groups := [[⟨5, 5, 5⟩], [⟨0, 0, -1⟩, ⟨0, 0, 1⟩, ⟨0, 0, 2⟩, ⟨0, 0, 0⟩]]
    scounts := [0, 0]
    nsplit := 0 }

/-- **C4** (counterexample): splitting with `θ = 1` on `c4St` crosses
group 1 (one point strictly left, two strictly right, one on the plane);
the split counter and the planes array both grow by one, but the appended
clone point groups' sizes sum to 2, not to the original group size 4: the
single left point (a side with at most `θ` points) and the on-plane point
are dropped.  The claim's second conjunct is therefore false. -/
theorem C4_counterexample :
    (splitPlanes 0 [0, 1] c4St 1).2.2.nsplit = c4St.nsplit + 1 ∧
    (splitPlanes 0 [0, 1] c4St 1).2.2.planes.length = c4St.planes.length + 1 ∧
    ¬ ((((splitPlanes 0 [0, 1] c4St 1).2.2.groups.drop c4St.groups.length).map
        List.length).sum = (c4St.groups.getD 1 []).length) := by
  refine ⟨?_, ?_, ?_⟩ <;>
    norm_num [splitPlanes, splitStep, peval, c4St, List.filter_cons, negPlane]

/-- Witness for C4: the amended characterization instantiated at `c4St`
(only the right side holds more than `θ = 1` points, so exactly one clone
of size 2 is appended). -/
theorem C4_split_planes_crossed_witness :
    (splitStep 0 (Plane.mk 0 0 1 0) 1 ([], [], c4St) 1).2.2.nsplit = c4St.nsplit + 1 ∧
    (splitStep 0 (Plane.mk 0 0 1 0) 1 ([], [], c4St) 1).2.2.planes.length =
      c4St.planes.length +
        ((if 1 < ((c4St.groups.getD 1 []).filter
            fun v => decide (peval (Plane.mk 0 0 1 0) v < 0)).length then 1 else 0) +
         (if 1 < ((c4St.groups.getD 1 []).filter
            fun v => decide (0 < peval (Plane.mk 0 0 1 0) v)).length then 1 else 0)) ∧
    (((splitStep 0 (Plane.mk 0 0 1 0) 1 ([], [], c4St) 1).2.2.groups.drop
        c4St.groups.length).map List.length) =
      ((if 1 < ((c4St.groups.getD 1 []).filter
          fun v => decide (peval (Plane.mk 0 0 1 0) v < 0)).length
        then [((c4St.groups.getD 1 []).filter
          fun v => decide (peval (Plane.mk 0 0 1 0) v < 0)).length] else []) ++
       (if 1 < ((c4St.groups.getD 1 []).filter
          fun v => decide (0 < peval (Plane.mk 0 0 1 0) v)).length
        then [((c4St.groups.getD 1 []).filter
          fun v => decide (0 < peval (Plane.mk 0 0 1 0) v)).length] else [])) ∧
    ((∀ v ∈ c4St.groups.getD 1 [], peval (Plane.mk 0 0 1 0) v ≠ 0) →
      1 < ((c4St.groups.getD 1 []).filter
        fun v => decide (peval (Plane.mk 0 0 1 0) v < 0)).length →
      1 < ((c4St.groups.getD 1 []).filter
        fun v => decide (0 < peval (Plane.mk 0 0 1 0) v)).length →
      ((c4St.groups.getD 1 []).filter
        fun v => decide (peval (Plane.mk 0 0 1 0) v < 0)).length +
        ((c4St.groups.getD 1 []).filter
          fun v => decide (0 < peval (Plane.mk 0 0 1 0) v)).length =
        (c4St.groups.getD 1 []).length) :=
  C4_split_planes_crossed 0 (Plane.mk 0 0 1 0) 1 [] [] c4St 1 (by simp)
    (by norm_num [c4St, peval, List.filter_cons])
    (by norm_num [c4St, peval, List.filter_cons])

end C4

section C3

/-! ## C3: `convex_intersection` on edges inherited during expansion

`construct_partition` keeps a local Python variable
`convex_intersection = False` (line 840), never reassigns it, and passes it
as the attribute of every edge `(m, child)` added towards a former
neighbour of the split cell (lines 919–930); only `supporting_plane` is
read from the old edge `(u, m)`.  The sibling edge `(l, r)` created when
both children are kept (line 900) instead carries the literal `True`. -/

/-- Edge attributes stored on a graph edge by `construct_partition`
(`intersection` is an abstract kernel-polyhedron handle; the random
`color` attribute is omitted). -/
structure EdgeAttrs (π : Type) where
  intersection : π
  vertices : List (V3 ℚ)
  supporting_plane : Plane ℚ
  edge_id : ℕ
  convex_intersection : Bool
  processed : Bool
  deriving DecidableEq, Repr

/-- The local flag `convex_intersection=False` set once before the
expansion loop of `construct_partition` (complex.py line 840). -/
def constructPartitionConvexFlag : Bool := false

/-- The edge `(l, r)` between the two kept children (complex.py line 900):
`convex_intersection=True, processed=False, vertices=[]`. -/
def siblingEdge (π : Type) (inter : π) (bp : Plane ℚ) : EdgeAttrs π :=
  { intersection := inter
    vertices := []
    supporting_plane := bp
    edge_id := 0
    convex_intersection := true
    processed := false }

/-- The edge `(m, child)` added towards a former neighbour `m` of the
split cell (complex.py lines 922–924 / 928–930): it inherits
`supporting_plane` from the old edge `(u, m)` but its
`convex_intersection` is the loop-constant flag, not the old edge's
attribute. -/
def neighborEdge (π : Type) (old : EdgeAttrs π) (inter : π) : EdgeAttrs π :=
  { intersection := inter
    vertices := []
    supporting_plane := old.supporting_plane
    edge_id := 0
    convex_intersection := constructPartitionConvexFlag
    processed := false }

/-- **C3** (counterexample): a neighbour edge inherited from a sibling
edge (whose `convex_intersection` is `True`) carries `False`, so the new
edge's attribute does *not* equal the old edge's. -/
theorem C3_counterexample :
    (neighborEdge ℕ (siblingEdge ℕ 0 ⟨0, 0, 1, 0⟩) 1).convex_intersection ≠
      (siblingEdge ℕ 0 ⟨0, 0, 1, 0⟩).convex_intersection := by
  simp [neighborEdge, siblingEdge, constructPartitionConvexFlag]

/-- **C3** (amended): every edge `(m, child)` added towards a former
neighbour during the tree/graph update carries the constant
`convex_intersection = False` (the flag initialized before the loop),
regardless of the old edge `(u, m)`'s value; only `supporting_plane` is
inherited, and `vertices` starts empty with `processed = False`. -/
theorem C3_neighbor_edge_flag (π : Type) (old : EdgeAttrs π) (inter : π) :
    (neighborEdge π old inter).convex_intersection = false ∧
    (neighborEdge π old inter).supporting_plane = old.supporting_plane ∧
    (neighborEdge π old inter).vertices = [] ∧
    (neighborEdge π old inter).processed = false :=
  ⟨rfl, rfl, rfl, rfl⟩

end C3

section C10

/-! ## C10: `label_cells` and networkx `set_node_attributes`

`label_cells` computes `foccs = dict(zip(self.graph.nodes, occs))` but then
calls `nx.set_node_attributes(self.graph, occs, "float_occupancy")` with
the raw occupancy *vector* instead of the dict; networkx assigns a
non-dict value as the same attribute value to every node.  The rounded
`occupancy` attribute does go through a dict. -/

/-- A node attribute value: a scalar or a whole vector (numpy array). -/
inductive AVal where
  | num (q : ℚ)
  | arr (l : List ℚ)
  deriving DecidableEq, Repr

/-- The `values` argument of networkx `set_node_attributes`: either a
per-node dict or a single (non-dict) value. -/
inductive NodeValues where
  | dict (m : List (ℕ × AVal))
  | single (v : AVal)

/-- networkx `set_node_attributes` semantics for one attribute name:
a dict sets the keyed nodes; any non-dict value is assigned to every
node of the graph. -/
def setNodeAttributes (ids : List ℕ) (vals : NodeValues) : List (ℕ × AVal) :=
  match vals with
  | .dict m => m
  | .single v => ids.map fun i => (i, v)

/-- `np.rint`: round to the nearest integer, halves to the even integer. -/
def rint (q : ℚ) : ℤ :=
  let f := ⌊q⌋
  let r := q - f
  if r < 1 / 2 then f
  else if 1 / 2 < r then f + 1
  else if Even f then f else f + 1

/-- `label_cells` after obtaining `occs` from the external labeler: the
resulting `(float_occupancy, occupancy)` attribute assignments.  The
per-node dict `foccs = dict(zip(nodes, occs))` is computed by the code but
never used: the raw vector `occs` is what is passed to
`set_node_attributes` for `float_occupancy`. -/
def labelCells (ids : List ℕ) (occs : List ℚ) :
    List (ℕ × AVal) × List (ℕ × AVal) :=
  (setNodeAttributes ids (.single (AVal.arr occs)),
   setNodeAttributes ids (.dict (ids.zip (occs.map fun q => AVal.num (rint q)))))

/-- **C10**: evaluating `label_cells` at the failing input (two cells,
labeler occupancies `1/5` and `9/10`): every node's `float_occupancy` is
the whole vector `[1/5, 9/10]` rather than the node's own scalar, while
`occupancy` is correctly the per-node rounding.  The dead `foccs` dict in
the source shows the scalar assignment was the intent. -/
theorem C10_label_cells_bug :
    (labelCells [0, 1] [1 / 5, 9 / 10]).1 =
      [(0, AVal.arr [1 / 5, 9 / 10]), (1, AVal.arr [1 / 5, 9 / 10])] ∧
    (labelCells [0, 1] [1 / 5, 9 / 10]).2 =
      [(0, AVal.num 0), (1, AVal.num 1)] ∧
    AVal.arr [1 / 5, 9 / 10] ≠ AVal.num (1 / 5) := by
  refine ⟨rfl, ?_, by simp⟩
  have h1 : Int.fract (1 / 5 : ℚ) = 1 / 5 := by
    rw [Int.fract]
    norm_num [Int.floor_eq_iff]
  have h2 : Int.fract (9 / 10 : ℚ) = 9 / 10 := by
    rw [Int.fract]
    norm_num [Int.floor_eq_iff]
  norm_num [labelCells, setNodeAttributes, rint, List.zip, h1, h2]

end C10

section GraphModel

/-! ## The cell-adjacency graph and the Sage kernel interface

The exact polyhedral kernel (Sage's `Polyhedron`) is an external
collaborator of the graph-level post-processing: it is modelled as an
abstract handle type `π` with the operations the code calls.  The graph is
the networkx `Graph` of `CellComplex`: nodes carry `occupancy`, `convex`
and (after a contraction) a `contraction` store; edges carry the
attributes set by the builder and the polygon finalizer.  Adjacency-list
order is modelled as edge-insertion order. -/

/-- The polyhedral-kernel operations used by the post-processing code. -/
structure PolyKernel (π : Type) where
  inter : π → π → π
  dim : π → ℤ
  verts : π → List (V3 ℚ)
  hull : π → π → π
  center : π → V3 ℚ
  dummy : π

/-- A graph node: `occupancy` (set by the labeler), its convex cell, and
networkx's `contraction` attribute recording merged nodes. -/
structure GNode (π : Type) where
  id : ℕ
  occupancy : ℤ
  convex : π
  contraction : List (ℕ × π)
  deriving DecidableEq, Repr

/-- A graph edge with the attributes used by the post-processing
(`intersection`/`vertices` are optional: edges made by the exhaustive
builder lack them until `_init_polygons` runs). -/
structure GEdge (π : Type) where
  u : ℕ
  v : ℕ
  intersection : Option π
  vertices : Option (List (V3 ℚ))
  supporting_plane : Plane ℚ
  convex_intersection : Bool
  processed : Bool
  deriving DecidableEq, Repr

/-- The undirected cell-adjacency graph. -/
structure Graph (π : Type) where
  nodes : List (GNode π)
  edges : List (GEdge π)
  deriving DecidableEq, Repr

/-- An edge connects `a` and `b` (stored in either orientation). -/
def edgeMatches (e : GEdge π) (a b : ℕ) : Bool :=
  (e.u = a ∧ e.v = b) ∨ (e.u = b ∧ e.v = a)

/-- `graph[a][b]`: the stored edge between `a` and `b`, if any. -/
def findEdge (g : Graph π) (a b : ℕ) : Option (GEdge π) :=
  g.edges.find? fun e => edgeMatches e a b

/-- `graph.nodes[i]`. -/
def findNode (g : Graph π) (i : ℕ) : Option (GNode π) :=
  g.nodes.find? fun n => n.id = i

/-- `graph.nodes[i]["occupancy"]` (0 when the node is absent, where Python
would raise). -/
def occOf (g : Graph π) (i : ℕ) : ℤ :=
  ((findNode g i).map fun n => n.occupancy).getD 0

/-- `graph.nodes[i]["convex"]`. -/
def convexOf (K : PolyKernel π) (g : Graph π) (i : ℕ) : π :=
  ((findNode g i).map fun n => n.convex).getD K.dummy

/-- `list(graph[a])`: the neighbours of `a` in insertion order. -/
def neighborsOf (g : Graph π) (a : ℕ) : List ℕ :=
  g.edges.filterMap fun e =>
    if e.u = a then some e.v else if e.v = a then some e.u else none

/-- No edge joins a node to itself. -/
def NoSelfLoops (g : Graph π) : Prop := ∀ e ∈ g.edges, e.u ≠ e.v

end GraphModel

section C6

/-! ## C6: `_get_intersection` (complex.py lines 243–260)

The corner point set used by both surface extractors: when the edge's
`vertices` attribute is present and not `None`, the code returns the
deduplicated `vertices` list *alone*; only otherwise does it fall back to
the stored intersection polygon's vertex list, and failing that to the
intersection of the two cells. -/

/-- `_get_intersection(e0, e1)`: the corner points of the facet between
cells `e0` and `e1` (`list(set(...))` modelled as `List.dedup`; the
missing-edge case, a Python `KeyError`, returns `[]`). -/
def getIntersection (K : PolyKernel π) (g : Graph π) (e0 e1 : ℕ) : List (V3 ℚ) :=
  match findEdge g e0 e1 with
  | none => []
  | some e =>
    match e.vertices with
    | some vs => vs.dedup
    | none =>
      match e.intersection with
      | some p => K.verts p
      | none => K.verts (K.inter (convexOf K g e0) (convexOf K g e1))

/-- The corner set the claim describes: the deduplicated union of the
stored intersection polygon's vertices with the edge's extra vertices. -/
def unionCorners (K : PolyKernel π) (g : Graph π) (e0 e1 : ℕ) : List (V3 ℚ) :=
  match findEdge g e0 e1 with
  | none => []
  | some e =>
    (((e.intersection.map K.verts).getD []) ++ e.vertices.getD []).dedup

/-- A toy kernel over natural-number polyhedron handles: handle 0 has the
single vertex `(0,0,0)`, every other handle the single vertex `(9,9,9)`. -/
def K6 : PolyKernel ℕ :=
  { inter := fun _ _ => 1
    dim := fun _ => 2
    verts := fun p => if p = 0 then [⟨0, 0, 0⟩] else [⟨9, 9, 9⟩]
    hull := fun _ _ => 1
    center := fun _ => ⟨0, 0, 0⟩
    dummy := 1 }

/-- A two-cell graph whose single edge stores intersection polygon `0`
(vertex `(0,0,0)`) and the extra-vertices list `[(1,1,1)]`. -/
def G6 : Graph ℕ :=
  { nodes := [⟨0, 0, 0, []⟩, ⟨1, 1, 0, []⟩]
    edges := [{ u := 0, v := 1, intersection := some 0, vertices := some [⟨1, 1, 1⟩],
                supporting_plane := ⟨0, 0, 1, 0⟩, convex_intersection := true,
                processed := false }] }

/-- **C6** (counterexample): on `G6` the code's corner set is
`{(1,1,1)}` — the vertices list alone — while the claimed union also
contains the intersection polygon's vertex `(0,0,0)`. -/
theorem C6_counterexample :
    (getIntersection K6 G6 0 1).toFinset ≠ (unionCorners K6 G6 0 1).toFinset := by
  decide

/-- **C6** (amended): whenever the edge's `vertices` attribute is present
and non-`None`, the corner point set used by the surface extractors is the
deduplicated `vertices` list alone — the stored intersection polygon is
ignored; the polygon's vertex list is used only as the fallback when
`vertices` is absent. -/
theorem C6_get_intersection (K : PolyKernel π) (g : Graph π) (e0 e1 : ℕ)
    (e : GEdge π) (he : findEdge g e0 e1 = some e)
    (vs : List (V3 ℚ)) (hvs : e.vertices = some vs) :
    (getIntersection K g e0 e1).toFinset = vs.toFinset := by
  unfold getIntersection
  simp only [he, hvs]
  ext x
  simp [List.mem_dedup]

/-- Witness for C6 at the concrete edge of `G6`. -/
theorem C6_get_intersection_witness :
    (getIntersection K6 G6 0 1).toFinset = [(⟨1, 1, 1⟩ : V3 ℚ)].toFinset :=
  C6_get_intersection K6 G6 0 1
    { u := 0, v := 1, intersection := some 0, vertices := some [⟨1, 1, 1⟩],
      supporting_plane := ⟨0, 0, 1, 0⟩, convex_intersection := true,
      processed := false }
    (by decide) [⟨1, 1, 1⟩] rfl

end C6

section C5

/-! ## C5: `construct_polygons` (complex.py lines 771–804)

For every boundary edge `(a, b)` (differing occupancy) the code intersects
the edge's facet with the facets towards every other neighbour of `a` and
of `b`, and *appends* the vertices of the dimension-0 and dimension-1
intersections to both edges' `vertices` lists — unconditionally, with
`+=`.  It never reads the
`vertices` lists, so a second call appends the very same vertices again. -/

/-- `edge["vertices"] += pts` on the stored edge `(a, b)` (an absent
attribute is treated as the empty list; after `_init_polygons` it is
always present). -/
def appendVerts (g : Graph π) (a b : ℕ) (pts : List (V3 ℚ)) : Graph π :=
  { g with edges := g.edges.map fun e =>
      if edgeMatches e a b then { e with vertices := some (e.vertices.getD [] ++ pts) }
      else e }

/-- One `for neighbor in list(graph[c0])` iteration of
`construct_polygons`: intersect the current facet (of edge `(a, bexcl)`)
with the facet towards neighbour `m`; on dimension 0 or 1 append the
vertices to both edges. -/
def processNeighbor (K : PolyKernel π) (a bexcl : ℕ) (g : Graph π) (m : ℕ) : Graph π :=
  if m = bexcl then g
  else
    match findEdge g a bexcl, findEdge g a m with
    | some cur, some em =>
      match cur.intersection, em.intersection with
      | some cf, some mf =>
        let fi := K.inter cf mf
        if K.dim fi = 0 ∨ K.dim fi = 1 then
          appendVerts (appendVerts g a bexcl (K.verts fi)) a m (K.verts fi)
        else g
      | _, _ => g
    | _, _ => g

/-- Processing of one edge `(a, b)` by `construct_polygons`: nothing
happens unless the occupancies differ; then both neighbour sweeps run. -/
def processPair (K : PolyKernel π) (g : Graph π) (p : ℕ × ℕ) : Graph π :=
  if occOf g p.1 ≠ occOf g p.2 then
    let g1 := (neighborsOf g p.1).foldl (processNeighbor K p.1 p.2) g
    (neighborsOf g1 p.2).foldl (processNeighbor K p.2 p.1) g1
  else g

/-- `construct_polygons()`: iterate over a snapshot of the edge list. -/
def constructPolygons (K : PolyKernel π) (g : Graph π) : Graph π :=
  (g.edges.map fun e => (e.u, e.v)).foldl (processPair K) g

/-- Everything of an edge except its `vertices` list. -/
def eskel (e : GEdge π) : ℕ × ℕ × Option π × Plane ℚ × Bool × Bool :=
  (e.u, e.v, e.intersection, e.supporting_plane, e.convex_intersection, e.processed)

/-- Two graphs agreeing everywhere except possibly on edge `vertices`. -/
def Aligned (g g' : Graph π) : Prop :=
  g.nodes = g'.nodes ∧ List.Forall₂ (fun e e' => eskel e = eskel e') g.edges g'.edges

/-- The `vertices` list of the `i`-th edge (empty when absent). -/
def vertsAt (g : Graph π) (i : ℕ) : List (V3 ℚ) :=
  ((g.edges[i]?).map fun e => e.vertices.getD []).getD []

theorem forall₂_eq_trans {α β : Type} {f : α → β} :
    ∀ {l₁ l₂ l₃ : List α}, List.Forall₂ (fun e e' => f e = f e') l₁ l₂ →
      List.Forall₂ (fun e e' => f e = f e') l₂ l₃ →
      List.Forall₂ (fun e e' => f e = f e') l₁ l₃ := by
  intro l₁ l₂ l₃ h₁
  induction h₁ generalizing l₃ with
  | nil =>
    intro h₂
    cases h₂
    exact List.Forall₂.nil
  | cons hab hrest ih =>
    intro h₂
    cases h₂ with
    | cons hbc hrest' => exact List.Forall₂.cons (hab.trans hbc) (ih hrest')

theorem aligned_refl (g : Graph π) : Aligned g g :=
  ⟨Eq.refl _, List.forall₂_same.mpr fun _ _ => Eq.refl _⟩

theorem aligned_trans {g₁ g₂ g₃ : Graph π} (h₁ : Aligned g₁ g₂) (h₂ : Aligned g₂ g₃) :
    Aligned g₁ g₃ :=
  ⟨h₁.1.trans h₂.1, forall₂_eq_trans h₁.2 h₂.2⟩

theorem forall₂_eq_symm {α β : Type} {f : α → β} :
    ∀ {l₁ l₂ : List α}, List.Forall₂ (fun e e' => f e = f e') l₁ l₂ →
      List.Forall₂ (fun e e' => f e = f e') l₂ l₁ := by
  intro l₁ l₂ h
  induction h with
  | nil => exact List.Forall₂.nil
  | cons hab hrest ih => exact List.Forall₂.cons hab.symm ih

theorem aligned_symm {g g' : Graph π} (h : Aligned g g') : Aligned g' g :=
  ⟨h.1.symm, forall₂_eq_symm h.2⟩

theorem eskel_u {e e' : GEdge π} (h : eskel e = eskel e') : e.u = e'.u :=
  congrArg (fun t => t.1) h

theorem eskel_v {e e' : GEdge π} (h : eskel e = eskel e') : e.v = e'.v :=
  congrArg (fun t => t.2.1) h

theorem eskel_inter {e e' : GEdge π} (h : eskel e = eskel e') :
    e.intersection = e'.intersection :=
  congrArg (fun t => t.2.2.1) h

theorem edgeMatches_eskel {e e' : GEdge π} (h : eskel e = eskel e') (a b : ℕ) :
    edgeMatches e a b = edgeMatches e' a b := by
  simp [edgeMatches, eskel_u h, eskel_v h]

theorem find?_eskel {l l' : List (GEdge π)} (a b : ℕ)
    (h2 : List.Forall₂ (fun e e' => eskel e = eskel e') l l') :
    ((l.find? fun e => edgeMatches e a b) = none ∧
      (l'.find? fun e => edgeMatches e a b) = none) ∨
    ∃ e e', (l.find? fun e => edgeMatches e a b) = some e ∧
      (l'.find? fun e => edgeMatches e a b) = some e' ∧ eskel e = eskel e' := by
  induction h2 with
  | nil => exact Or.inl ⟨rfl, rfl⟩
  | @cons e e' l l' hee hrest ih =>
    by_cases hm : edgeMatches e a b = true
    · refine Or.inr ⟨e, e', ?_, ?_, hee⟩
      · exact List.find?_cons_of_pos l hm
      · exact List.find?_cons_of_pos l' (by rw [← edgeMatches_eskel hee]; exact hm)
    · rw [List.find?_cons_of_neg l hm,
        List.find?_cons_of_neg l' (by rw [← edgeMatches_eskel hee]; exact hm)]
      exact ih

theorem aligned_findEdge {g g' : Graph π} (h : Aligned g g') (a b : ℕ) :
    (findEdge g a b = none ∧ findEdge g' a b = none) ∨
    ∃ e e', findEdge g a b = some e ∧ findEdge g' a b = some e' ∧ eskel e = eskel e' :=
  find?_eskel a b h.2

theorem neighbors_eskel (a : ℕ) {l l' : List (GEdge π)}
    (h2 : List.Forall₂ (fun e e' => eskel e = eskel e') l l') :
    (l.filterMap fun e => if e.u = a then some e.v else if e.v = a then some e.u else none) =
    (l'.filterMap fun e => if e.u = a then some e.v else if e.v = a then some e.u else none) := by
  induction h2 with
  | nil => rfl
  | @cons e e' l l' hee hrest ih =>
    rw [List.filterMap_cons, List.filterMap_cons, eskel_u hee, eskel_v hee, ih]

theorem aligned_neighbors {g g' : Graph π} (h : Aligned g g') (a : ℕ) :
    neighborsOf g a = neighborsOf g' a :=
  neighbors_eskel a h.2

theorem aligned_occOf {g g' : Graph π} (h : Aligned g g') (i : ℕ) :
    occOf g i = occOf g' i := by
  unfold occOf findNode
  rw [h.1]

theorem pairs_eskel {l l' : List (GEdge π)}
    (h2 : List.Forall₂ (fun e e' => eskel e = eskel e') l l') :
    l.map (fun e => (e.u, e.v)) = l'.map (fun e => (e.u, e.v)) := by
  induction h2 with
  | nil => rfl
  | @cons e e' l l' hee hrest ih =>
    rw [List.map_cons, List.map_cons, eskel_u hee, eskel_v hee, ih]

theorem aligned_pairs {g g' : Graph π} (h : Aligned g g') :
    g.edges.map (fun e => (e.u, e.v)) = g'.edges.map (fun e => (e.u, e.v)) :=
  pairs_eskel h.2

theorem forall₂_getElem? {α β : Type} {R : α → β → Prop} :
    ∀ {l : List α} {l' : List β}, List.Forall₂ R l l' → ∀ i : ℕ,
      (l[i]? = none ∧ l'[i]? = none) ∨
      ∃ x y, l[i]? = some x ∧ l'[i]? = some y ∧ R x y := by
  intro l l' h
  induction h with
  | nil => intro i; exact Or.inl ⟨rfl, rfl⟩
  | @cons x y l l' hxy hrest ih =>
    intro i
    match i with
    | 0 => exact Or.inr ⟨x, y, by simp, by simp, hxy⟩
    | i + 1 => simpa using ih i

/-- The flag "edge `i` is the stored edge `(a, b)`": the per-index append
selector of `appendVerts`. -/
def matchFlag (g : Graph π) (a b : ℕ) (i : ℕ) : Bool :=
  ((g.edges[i]?).map fun e => edgeMatches e a b).getD false

theorem aligned_matchFlag {g g' : Graph π} (h : Aligned g g') (a b i : ℕ) :
    matchFlag g a b i = matchFlag g' a b i := by
  unfold matchFlag
  rcases forall₂_getElem? h.2 i with ⟨h1, h2⟩ | ⟨e, e', h1, h2, hee⟩
  · rw [h1, h2]
  · rw [h1, h2]
    simp [edgeMatches_eskel hee]

theorem vertsAt_appendVerts (g : Graph π) (a b : ℕ) (pts : List (V3 ℚ)) (i : ℕ) :
    vertsAt (appendVerts g a b pts) i =
      vertsAt g i ++ (if matchFlag g a b i then pts else []) := by
  unfold vertsAt appendVerts matchFlag
  simp only [List.getElem?_map]
  cases hi : g.edges[i]? with
  | none => simp [hi]
  | some e =>
    by_cases hm : edgeMatches e a b = true <;> simp [hi, hm]

theorem appendVerts_map_eskel (a b : ℕ) (pts : List (V3 ℚ))
    {l l' : List (GEdge π)}
    (h2 : List.Forall₂ (fun e e' => eskel e = eskel e') l l') :
    List.Forall₂ (fun e e' => eskel e = eskel e')
      (l.map fun e =>
        if edgeMatches e a b then { e with vertices := some (e.vertices.getD [] ++ pts) }
        else e)
      (l'.map fun e =>
        if edgeMatches e a b then { e with vertices := some (e.vertices.getD [] ++ pts) }
        else e) := by
  induction h2 with
  | nil => exact List.Forall₂.nil
  | @cons e e' l l' hee hrest ih =>
    rw [List.map_cons, List.map_cons]
    refine List.Forall₂.cons ?_ ih
    by_cases hm : edgeMatches e a b = true
    · rw [if_pos hm, if_pos (by rw [← edgeMatches_eskel hee]; exact hm)]
      exact hee
    · rw [if_neg hm, if_neg (by rw [← edgeMatches_eskel hee]; exact hm)]
      exact hee

theorem appendVerts_aligned {g g' : Graph π} (h : Aligned g g') (a b : ℕ)
    (pts : List (V3 ℚ)) :
    Aligned (appendVerts g a b pts) (appendVerts g' a b pts) :=
  ⟨h.1, appendVerts_map_eskel a b pts h.2⟩

theorem self_map_eskel (a b : ℕ) (pts : List (V3 ℚ)) (l : List (GEdge π)) :
    List.Forall₂ (fun e e' => eskel e = eskel e') l
      (l.map fun e =>
        if edgeMatches e a b then { e with vertices := some (e.vertices.getD [] ++ pts) }
        else e) := by
  induction l with
  | nil => exact List.Forall₂.nil
  | cons e l ih =>
    rw [List.map_cons]
    refine List.Forall₂.cons ?_ ih
    by_cases hm : edgeMatches e a b = true
    · rw [if_pos hm]
      rfl
    · rw [if_neg hm]

theorem appendVerts_self_aligned (g : Graph π) (a b : ℕ) (pts : List (V3 ℚ)) :
    Aligned g (appendVerts g a b pts) :=
  ⟨rfl, self_map_eskel a b pts g.edges⟩

theorem appendVerts_bisim {g g' : Graph π} (h : Aligned g g') (a b : ℕ)
    (pts : List (V3 ℚ)) :
    Aligned (appendVerts g a b pts) (appendVerts g' a b pts) ∧
    ∃ D : ℕ → List (V3 ℚ),
      (∀ i, vertsAt (appendVerts g a b pts) i = vertsAt g i ++ D i) ∧
      (∀ i, vertsAt (appendVerts g' a b pts) i = vertsAt g' i ++ D i) := by
  refine ⟨appendVerts_aligned h a b pts,
    fun i => if matchFlag g a b i then pts else [], fun i => vertsAt_appendVerts g a b pts i,
    fun i => ?_⟩
  rw [vertsAt_appendVerts g' a b pts i, ← aligned_matchFlag h a b i]

/-- A no-op step seen as a bisimulation step (nothing appended). -/
theorem bisim_id {g g' : Graph π} (h : Aligned g g') :
    Aligned g g' ∧
    ∃ D : ℕ → List (V3 ℚ),
      (∀ i, vertsAt g i = vertsAt g i ++ D i) ∧
      (∀ i, vertsAt g' i = vertsAt g' i ++ D i) :=
  ⟨h, fun _ => [], fun _ => (List.append_nil _).symm, fun _ => (List.append_nil _).symm⟩

/-- Bisimulation through a left fold of a step that respects alignment
and appends the same vertices to both runs. -/
theorem foldl_bisim {κ : Type} (step : Graph π → κ → Graph π)
    (hstep : ∀ {g g' : Graph π} (x : κ), Aligned g g' →
      Aligned (step g x) (step g' x) ∧
      ∃ D : ℕ → List (V3 ℚ),
        (∀ i, vertsAt (step g x) i = vertsAt g i ++ D i) ∧
        (∀ i, vertsAt (step g' x) i = vertsAt g' i ++ D i)) :
    ∀ (xs : List κ) {g g' : Graph π}, Aligned g g' →
      Aligned (xs.foldl step g) (xs.foldl step g') ∧
      ∃ D : ℕ → List (V3 ℚ),
        (∀ i, vertsAt (xs.foldl step g) i = vertsAt g i ++ D i) ∧
        (∀ i, vertsAt (xs.foldl step g') i = vertsAt g' i ++ D i) := by
  intro xs
  induction xs with
  | nil => exact fun h => bisim_id h
  | cons x xs ih =>
    intro g g' h
    obtain ⟨ha, D1, h1, h1'⟩ := hstep x h
    obtain ⟨hb, D2, h2, h2'⟩ := ih ha
    rw [List.foldl_cons, List.foldl_cons]
    refine ⟨hb, fun i => D1 i ++ D2 i, fun i => ?_, fun i => ?_⟩
    · rw [h2 i, h1 i, List.append_assoc]
    · rw [h2' i, h1' i, List.append_assoc]

/-- A fold of self-aligning steps is self-aligning. -/
theorem foldl_self_aligned {κ : Type} (step : Graph π → κ → Graph π)
    (hstep : ∀ (g : Graph π) (x : κ), Aligned g (step g x)) :
    ∀ (xs : List κ) (g : Graph π), Aligned g (xs.foldl step g) := by
  intro xs
  induction xs with
  | nil => exact fun g => aligned_refl g
  | cons x xs ih =>
    intro g
    rw [List.foldl_cons]
    exact aligned_trans (hstep g x) (ih (step g x))

theorem processNeighbor_self_aligned (K : PolyKernel π) (a bexcl : ℕ)
    (g : Graph π) (m : ℕ) : Aligned g (processNeighbor K a bexcl g m) := by
  unfold processNeighbor
  split
  · exact aligned_refl g
  split
  · split
    · dsimp only
      split
      · exact aligned_trans (appendVerts_self_aligned g a bexcl _)
          (appendVerts_self_aligned _ a m _)
      · exact aligned_refl g
    · exact aligned_refl g
  · exact aligned_refl g

theorem processNeighbor_bisim (K : PolyKernel π) (a bexcl m : ℕ)
    {g g' : Graph π} (h : Aligned g g') :
    Aligned (processNeighbor K a bexcl g m) (processNeighbor K a bexcl g' m) ∧
    ∃ D : ℕ → List (V3 ℚ),
      (∀ i, vertsAt (processNeighbor K a bexcl g m) i = vertsAt g i ++ D i) ∧
      (∀ i, vertsAt (processNeighbor K a bexcl g' m) i = vertsAt g' i ++ D i) := by
  unfold processNeighbor
  by_cases hm : m = bexcl
  · rw [if_pos hm, if_pos hm]
    exact bisim_id h
  rw [if_neg hm, if_neg hm]
  rcases aligned_findEdge h a bexcl with ⟨hn, hn'⟩ | ⟨cur, cur', hc, hc', hcc⟩
  · rw [hn, hn']
    rcases aligned_findEdge h a m with ⟨hn2, hn2'⟩ | ⟨em, em', he2, he2', hee2⟩ <;>
      [rw [hn2, hn2']; rw [he2, he2']] <;> exact bisim_id h
  rw [hc, hc']
  rcases aligned_findEdge h a m with ⟨hn2, hn2'⟩ | ⟨em, em', he2, he2', hee2⟩
  · rw [hn2, hn2']
    exact bisim_id h
  rw [he2, he2']
  dsimp only
  rw [← eskel_inter hcc, ← eskel_inter hee2]
  cases hci : cur.intersection with
  | none => exact bisim_id h
  | some cf =>
    cases hmi : em.intersection with
    | none => exact bisim_id h
    | some mf =>
      dsimp only
      by_cases hd : K.dim (K.inter cf mf) = 0 ∨ K.dim (K.inter cf mf) = 1
      · rw [if_pos hd, if_pos hd]
        obtain ⟨ha1, D1, h1, h1'⟩ := appendVerts_bisim h a bexcl (K.verts (K.inter cf mf))
        obtain ⟨ha2, D2, h2, h2'⟩ := appendVerts_bisim ha1 a m (K.verts (K.inter cf mf))
        refine ⟨ha2, fun i => D1 i ++ D2 i, fun i => ?_, fun i => ?_⟩
        · rw [h2 i, h1 i, List.append_assoc]
        · rw [h2' i, h1' i, List.append_assoc]
      · rw [if_neg hd, if_neg hd]
        exact bisim_id h

theorem processPair_self_aligned (K : PolyKernel π) (g : Graph π) (p : ℕ × ℕ) :
    Aligned g (processPair K g p) := by
  unfold processPair
  split
  · exact aligned_trans
      (foldl_self_aligned _ (fun g m => processNeighbor_self_aligned K p.1 p.2 g m)
        (neighborsOf g p.1) g)
      (foldl_self_aligned _ (fun g m => processNeighbor_self_aligned K p.2 p.1 g m) _ _)
  · exact aligned_refl g

theorem processPair_bisim (K : PolyKernel π) (p : ℕ × ℕ) {g g' : Graph π}
    (h : Aligned g g') :
    Aligned (processPair K g p) (processPair K g' p) ∧
    ∃ D : ℕ → List (V3 ℚ),
      (∀ i, vertsAt (processPair K g p) i = vertsAt g i ++ D i) ∧
      (∀ i, vertsAt (processPair K g' p) i = vertsAt g' i ++ D i) := by
  unfold processPair
  rw [← aligned_occOf h p.1, ← aligned_occOf h p.2]
  by_cases ho : occOf g p.1 ≠ occOf g p.2
  · rw [if_pos ho, if_pos ho, ← aligned_neighbors h p.1]
    obtain ⟨ha1, D1, h1, h1'⟩ :=
      foldl_bisim (processNeighbor K p.1 p.2)
        (fun x hal => processNeighbor_bisim K p.1 p.2 x hal) (neighborsOf g p.1) h
    dsimp only
    rw [← aligned_neighbors ha1 p.2]
    obtain ⟨ha2, D2, h2, h2'⟩ :=
      foldl_bisim (processNeighbor K p.2 p.1)
        (fun x hal => processNeighbor_bisim K p.2 p.1 x hal)
        (neighborsOf ((neighborsOf g p.1).foldl (processNeighbor K p.1 p.2) g) p.2) ha1
    refine ⟨ha2, fun i => D1 i ++ D2 i, fun i => ?_, fun i => ?_⟩
    · rw [h2 i, h1 i, List.append_assoc]
    · rw [h2' i, h1' i, List.append_assoc]
  · rw [if_neg ho, if_neg ho]
    exact bisim_id h

theorem constructPolygons_self_aligned (K : PolyKernel π) (g : Graph π) :
    Aligned g (constructPolygons K g) :=
  foldl_self_aligned _ (fun g p => processPair_self_aligned K g p) _ g

theorem constructPolygons_bisim (K : PolyKernel π) {g g' : Graph π} (h : Aligned g g') :
    Aligned (constructPolygons K g) (constructPolygons K g') ∧
    ∃ D : ℕ → List (V3 ℚ),
      (∀ i, vertsAt (constructPolygons K g) i = vertsAt g i ++ D i) ∧
      (∀ i, vertsAt (constructPolygons K g') i = vertsAt g' i ++ D i) := by
  unfold constructPolygons
  rw [← aligned_pairs h]
  exact foldl_bisim (processPair K) (fun x hal => processPair_bisim K x hal) _ h

/-- **C5** (amended): a second run of `construct_polygons` appends to each
edge's `vertices` list exactly the same recovered vertices the first run
appended (it reads only occupancies, adjacency and the `intersection`
attributes, none of which change); the graph is unchanged except for the
duplicated appends, so every edge's intersection polygon and deduplicated
vertex set are the same before and after the second call. -/
theorem C5_construct_polygons (K : PolyKernel π) (g : Graph π) :
    Aligned (constructPolygons K (constructPolygons K g)) (constructPolygons K g) ∧
    ∀ i, (vertsAt (constructPolygons K (constructPolygons K g)) i).toFinset =
      (vertsAt (constructPolygons K g) i).toFinset := by
  have hself : Aligned g (constructPolygons K g) := constructPolygons_self_aligned K g
  obtain ⟨ha, D, h1, h2⟩ := constructPolygons_bisim K hself
  refine ⟨aligned_symm ha, fun i => ?_⟩
  rw [h2 i, h1 i]
  simp [List.toFinset_append, Finset.union_assoc]

/-- The toy kernel for the C5 counterexample: every facet-facet
intersection has dimension 0 and the single vertex `(7,7,7)`. -/
def K5 : PolyKernel ℕ :=
  { inter := fun _ _ => 0
    dim := fun _ => 0
    verts := fun _ => [⟨7, 7, 7⟩]
    hull := fun _ _ => 0
    center := fun _ => ⟨0, 0, 0⟩
    dummy := 0 }

/-- A three-cell chain: the boundary edge `(0, 1)` and the same-label edge
`(0, 2)`, both with initialized empty `vertices`. -/
def G5 : Graph ℕ :=
  { nodes := [⟨0, 0, 0, []⟩, ⟨1, 1, 0, []⟩, ⟨2, 0, 0, []⟩]
    edges := [{ u := 0, v := 1, intersection := some 0, vertices := some [],
                supporting_plane := ⟨0, 0, 1, 0⟩, convex_intersection := false,
                processed := false },
              { u := 0, v := 2, intersection := some 0, vertices := some [],
                supporting_plane := ⟨0, 0, 1, 0⟩, convex_intersection := false,
                processed := false }] }

/-- **C5** (counterexample): running `construct_polygons` twice on `G5` is
*not* a no-op — the second call appends the recovered vertex `(7,7,7)` to
the `vertices` lists a second time. -/
theorem C5_counterexample :
    constructPolygons K5 (constructPolygons K5 G5) ≠ constructPolygons K5 G5 := by
  decide

end C5

section C7

/-! ## C7: the simplifier variants (complex.py lines 661–700 and 752–769)

`collapse_convex_intersections` sweeps a snapshot of the edge list once,
contracting every edge whose endpoints share the occupancy label and whose
`convex_intersection` flag is set (networkx `contracted_edge` with
`self_loops=False`); it never touches `self.tree`.  `simplify` additionally
maintains the BSP tree: it replaces the contracted pair by a node carrying
the tree parent's data under the grandparent, and re-marks the new sibling
edge.  Its tree lookups can fail (contracting the root's children, or a
non-sibling pair); the embedding surfaces those paths as `Except.error`
carrying the state at the failure point — the graph contraction has
already happened when Python raises. -/

/-- networkx edge re-attachment during a contraction: the moved edge's
attributes overwrite a pre-existing parallel edge, otherwise the edge is
appended. -/
def upsertEdge (es : List (GEdge π)) (me : GEdge π) : List (GEdge π) :=
  if es.any fun e => edgeMatches e me.u me.v then
    es.map fun e => if edgeMatches e me.u me.v then { me with u := e.u, v := e.v } else e
  else es ++ [me]

/-- networkx `contracted_edge(G, (u, v), self_loops=False, copy=False)`:
remove `v`, rewire its other edges to `u` (dropping would-be self loops),
and record `v`'s data in `u`'s `contraction` attribute. -/
def contractEdge (g : Graph π) (u v : ℕ) : Graph π :=
  let vdata := findNode g v
  let moved := (g.edges.filter fun e => e.u = v ∨ e.v = v).filterMap fun e =>
    let w := if e.u = v then e.v else e.u
    if w = u ∨ w = v then none else some { e with u := u, v := w }
  let kept := g.edges.filter fun e => e.u ≠ v ∧ e.v ≠ v
  { nodes := (g.nodes.filter fun n => n.id ≠ v).map fun n =>
      if n.id = u then
        { n with contraction :=
            n.contraction ++ ((vdata.map fun d => [(v, d.convex)]).getD []) }
      else n
    edges := moved.foldl upsertEdge kept }

/-- `graph.nodes[u]["convex"] = hull(graph.nodes[u]["convex"],
graph.nodes[u]["contraction"][v]["convex"])` (collapse variant). -/
def setHullFromContraction (K : PolyKernel π) (g : Graph π) (u v : ℕ) : Graph π :=
  { g with nodes := g.nodes.map fun n =>
      if n.id = u then
        match n.contraction.find? fun pr => pr.1 = v with
        | some pr => { n with convex := K.hull n.convex pr.2 }
        | none => n
      else n }

/-- One iteration of the edge sweep of `collapse_convex_intersections`. -/
def collapseStep (K : PolyKernel π) (acc : Graph π × List ℕ) (p : ℕ × ℕ) :
    Graph π × List ℕ :=
  if p.1 ∈ acc.2 ∨ p.2 ∈ acc.2 then acc
  else if occOf acc.1 p.1 = occOf acc.1 p.2 then
    match findEdge acc.1 p.1 p.2 with
    | some e =>
      if e.convex_intersection then
        (setHullFromContraction K (contractEdge acc.1 p.1 p.2) p.1 p.2, acc.2 ++ [p.2])
      else acc
    | none => acc
  else acc

/-- `collapse_convex_intersections()`: a single sweep over a snapshot of
the edge list; the tree is never read or written. -/
def collapseConvexIntersections (K : PolyKernel π) (g : Graph π) : Graph π :=
  ((g.edges.map fun e => (e.u, e.v)).foldl (collapseStep K) (g, [])).1

/-- A treelib node: identifier, parent pointer and the `data` payload. -/
structure TNode (π : Type) where
  id : ℕ
  parent : Option ℕ
  convex : Option π
  plane_ids : List ℕ
  deriving DecidableEq, Repr

/-- A treelib tree as a flat list of parent-linked nodes. -/
abbrev TTree (π : Type) := List (TNode π)

/-- `tree[i]`. -/
def tnode (t : TTree π) (i : ℕ) : Option (TNode π) := t.find? fun n => n.id = i

/-- Child identifiers of `i`. -/
def tchildren (t : TTree π) (i : ℕ) : List ℕ :=
  (t.filter fun n => n.parent = some i).map fun n => n.id

/-- treelib `is_leaf`. -/
def tIsLeaf (t : TTree π) (i : ℕ) : Bool := (tchildren t i).isEmpty

/-- Identifiers of the leaves (treelib `tree.leaves()` tags). -/
def leavesIds (t : TTree π) : List ℕ :=
  (t.filter fun n => tIsLeaf t n.id).map fun n => n.id

/-- The identifiers carried by the graph nodes. -/
def nodeIds (g : Graph π) : List ℕ := g.nodes.map fun n => n.id

/-- The subtree rooted at `i` (fuel-bounded descent). -/
def subtreeIds (t : TTree π) : ℕ → ℕ → List ℕ
  | 0, i => [i]
  | fuel + 1, i => i :: (tchildren t i).flatMap fun c => subtreeIds t fuel c

/-- treelib `remove_node`: delete the node *and its whole subtree*. -/
def removeSubtree (t : TTree π) (i : ℕ) : TTree π :=
  t.filter fun n => !(subtreeIds t t.length i).contains n.id

/-- `graph.nodes[i]["convex"] = c` (simplify writes the tree parent's
stored convex). -/
def setNodeConvexOpt (g : Graph π) (i : ℕ) (c : Option π) : Graph π :=
  { g with nodes := g.nodes.map fun n =>
      if n.id = i then
        match c with
        | some cv => { n with convex := cv }
        | none => n
      else n }

/-- `graph.edges[a, b]["convex_intersection"] = True; ... ["processed"] =
False` (a missing edge, a Python `KeyError`, is modelled as a no-op). -/
def setEdgeCollapseFlags (g : Graph π) (a b : ℕ) : Graph π :=
  { g with edges := g.edges.map fun e =>
      if edgeMatches e a b then { e with convex_intersection := true, processed := false }
      else e }

/-- One contraction of `simplify`'s inner loop: graph contraction first,
then the tree surgery; `Except.error` carries the state at each failing
tree access (parent of the root, missing sibling). -/
def simplifyStep (st : Graph π × TTree π × List ℕ) (p : ℕ × ℕ) :
    Except (Graph π × TTree π) (Graph π × TTree π × List ℕ) :=
  if p.1 ∈ st.2.2 ∨ p.2 ∈ st.2.2 then .ok st
  else
    let g1 := contractEdge st.1 p.1 p.2
    match tnode st.2.1 p.1 with
    | none => .error (g1, st.2.1)
    | some n0 =>
      match n0.parent with
      | none => .error (g1, st.2.1)
      | some parid =>
        match tnode st.2.1 parid with
        | none => .error (g1, st.2.1)
        | some par =>
          match par.parent with
          | none => .error (g1, st.2.1)
          | some ppid =>
            let g2 := setNodeConvexOpt g1 p.1 par.convex
            let t1 := removeSubtree st.2.1 parid
            let t2 := t1 ++ [⟨p.1, some ppid, par.convex, par.plane_ids⟩]
            match (tchildren t2 ppid).filter fun c => c ≠ p.1 with
            | [] => .error (g2, t2)
            | sib :: _ =>
              let g3 := if tIsLeaf t2 sib then setEdgeCollapseFlags g2 p.1 sib else g2
              .ok (g3, t2, st.2.2 ++ [p.2])

/-- One inner `for c0, c1 in edges` pass of `simplify`. -/
def simplifyPass :
    List (ℕ × ℕ) → Graph π × TTree π × List ℕ →
      Except (Graph π × TTree π) (Graph π × TTree π × List ℕ)
  | [], st => .ok st
  | p :: ps, st =>
    match simplifyStep st p with
    | .error e => .error e
    | .ok st' => simplifyPass ps st'

/-- The edges passing `simplify`'s `filter_edge` (same occupancy and
`convex_intersection` set). -/
def qualifyingPairs (g : Graph π) : List (ℕ × ℕ) :=
  (g.edges.filter fun e =>
    decide (occOf g e.u = occOf g e.v) && e.convex_intersection).map fun e => (e.u, e.v)

/-- `simplify`'s outer `while len(edges)` loop, fuel-indexed (each pass
with at least one contraction shrinks the graph, so the node count bounds
the passes). -/
def simplifyLoop : ℕ → Graph π → TTree π →
    Except (Graph π × TTree π) (Graph π × TTree π)
  | 0, g, t => .ok (g, t)
  | fuel + 1, g, t =>
    if (qualifyingPairs g).isEmpty then .ok (g, t)
    else
      match simplifyPass (qualifyingPairs g) (g, t, []) with
      | .error e => .error e
      | .ok st' => simplifyLoop fuel st'.1 st'.2.1

theorem upsertEdge_nsl {es : List (GEdge π)} {me : GEdge π}
    (hes : ∀ e ∈ es, e.u ≠ e.v) (hme : me.u ≠ me.v) :
    ∀ e ∈ upsertEdge es me, e.u ≠ e.v := by
  intro e he
  unfold upsertEdge at he
  split at he
  · rcases List.mem_map.mp he with ⟨e0, he0, heq⟩
    by_cases hm : edgeMatches e0 me.u me.v = true
    · rw [if_pos hm] at heq
      rw [← heq]
      exact hes e0 he0
    · rw [if_neg hm] at heq
      rw [← heq]
      exact hes e0 he0
  · rcases List.mem_append.mp he with h | h
    · exact hes e h
    · rw [List.mem_singleton.mp h]
      exact hme

theorem foldl_upsert_nsl :
    ∀ (ms : List (GEdge π)) (es : List (GEdge π)),
      (∀ e ∈ es, e.u ≠ e.v) → (∀ m ∈ ms, m.u ≠ m.v) →
      ∀ e ∈ ms.foldl upsertEdge es, e.u ≠ e.v := by
  intro ms
  induction ms with
  | nil => intro es hes _ e he; exact hes e he
  | cons m ms ih =>
    intro es hes hms e he
    rw [List.foldl_cons] at he
    exact ih (upsertEdge es m)
      (upsertEdge_nsl hes (hms m (List.mem_cons_self m ms)))
      (fun x hx => hms x (List.mem_cons_of_mem m hx)) e he

theorem contractEdge_nsl {g : Graph π} (h : NoSelfLoops g) (u v : ℕ) :
    NoSelfLoops (contractEdge g u v) := by
  intro e he
  simp only [contractEdge] at he
  refine foldl_upsert_nsl _ _ ?_ ?_ e he
  · intro x hx
    exact h x (List.mem_of_mem_filter hx)
  · intro m hm
    rcases List.mem_filterMap.mp hm with ⟨e0, he0, hsome⟩
    have key : ∀ w : ℕ,
        (if w = u ∨ w = v then none else some { e0 with u := u, v := w }) = some m →
        m.u ≠ m.v := by
      intro w hw
      split at hw
      · cases hw
      · rename_i hcond
        cases hw
        simp only [ne_eq]
        intro huw
        exact hcond (Or.inl huw.symm)
    exact key _ hsome

theorem setEdgeCollapseFlags_nsl {g : Graph π} (h : NoSelfLoops g) (a b : ℕ) :
    NoSelfLoops (setEdgeCollapseFlags g a b) := by
  intro e he
  unfold setEdgeCollapseFlags at he
  simp only at he
  rcases List.mem_map.mp he with ⟨e0, he0, heq⟩
  by_cases hm : edgeMatches e0 a b = true
  · rw [if_pos hm] at heq
    rw [← heq]
    exact h e0 he0
  · rw [if_neg hm] at heq
    rw [← heq]
    exact h e0 he0

theorem setHullFromContraction_nsl (K : PolyKernel π) {g : Graph π}
    (h : NoSelfLoops g) (u v : ℕ) : NoSelfLoops (setHullFromContraction K g u v) := h

theorem setNodeConvexOpt_nsl {g : Graph π} (h : NoSelfLoops g) (i : ℕ)
    (c : Option π) : NoSelfLoops (setNodeConvexOpt g i c) := h

theorem collapseStep_nsl (K : PolyKernel π) {acc : Graph π × List ℕ}
    (h : NoSelfLoops acc.1) (p : ℕ × ℕ) : NoSelfLoops (collapseStep K acc p).1 := by
  unfold collapseStep
  split
  · exact h
  split
  · split
    · split
      · exact setHullFromContraction_nsl K (contractEdge_nsl h p.1 p.2) p.1 p.2
      · exact h
    · exact h
  · exact h

theorem collapse_foldl_nsl (K : PolyKernel π) :
    ∀ (ps : List (ℕ × ℕ)) (acc : Graph π × List ℕ), NoSelfLoops acc.1 →
      NoSelfLoops ((ps.foldl (collapseStep K) acc).1) := by
  intro ps
  induction ps with
  | nil => exact fun acc h => h
  | cons p ps ih =>
    intro acc h
    rw [List.foldl_cons]
    exact ih _ (collapseStep_nsl K h p)

theorem simplifyStep_nsl {st : Graph π × TTree π × List ℕ}
    (h : NoSelfLoops st.1) (p : ℕ × ℕ) :
    (∀ out, simplifyStep st p = .ok out → NoSelfLoops out.1) ∧
    (∀ er, simplifyStep st p = .error er → NoSelfLoops er.1) := by
  have hg1 : NoSelfLoops (contractEdge st.1 p.1 p.2) := contractEdge_nsl h p.1 p.2
  constructor
  · intro out hout
    unfold simplifyStep at hout
    split at hout
    · cases hout
      exact h
    · dsimp only at hout
      split at hout
      · cases hout
      split at hout
      · cases hout
      split at hout
      · cases hout
      split at hout
      · cases hout
      split at hout
      · cases hout
      · cases hout
        dsimp only
        split
        · exact setEdgeCollapseFlags_nsl (setNodeConvexOpt_nsl hg1 p.1 _) p.1 _
        · exact setNodeConvexOpt_nsl hg1 p.1 _
  · intro er her
    unfold simplifyStep at her
    split at her
    · cases her
    · dsimp only at her
      split at her
      · cases her
        exact hg1
      split at her
      · cases her
        exact hg1
      split at her
      · cases her
        exact hg1
      split at her
      · cases her
        exact hg1
      split at her
      · cases her
        exact setNodeConvexOpt_nsl hg1 p.1 _
      · cases her

theorem simplifyPass_nsl :
    ∀ (ps : List (ℕ × ℕ)) (st : Graph π × TTree π × List ℕ), NoSelfLoops st.1 →
      (∀ out, simplifyPass ps st = .ok out → NoSelfLoops out.1) ∧
      (∀ er, simplifyPass ps st = .error er → NoSelfLoops er.1) := by
  intro ps
  induction ps with
  | nil =>
    intro st h
    constructor
    · intro out hout
      cases hout
      exact h
    · intro er her
      cases her
  | cons p ps ih =>
    intro st h
    simp only [simplifyPass]
    cases hstep : simplifyStep st p with
    | error e =>
      constructor
      · intro out hout
        cases hout
      · intro er her
        cases her
        exact (simplifyStep_nsl h p).2 e hstep
    | ok st' =>
      exact ih st' ((simplifyStep_nsl h p).1 st' hstep)

theorem simplifyLoop_nsl :
    ∀ (fuel : ℕ) (g : Graph π) (t : TTree π), NoSelfLoops g →
      (∀ out, simplifyLoop fuel g t = .ok out → NoSelfLoops out.1) ∧
      (∀ er, simplifyLoop fuel g t = .error er → NoSelfLoops er.1) := by
  intro fuel
  induction fuel with
  | zero =>
    intro g t h
    constructor
    · intro out hout
      cases hout
      exact h
    · intro er her
      cases her
  | succ fuel ih =>
    intro g t h
    simp only [simplifyLoop]
    split
    · constructor
      · intro out hout
        cases hout
        exact h
      · intro er her
        cases her
    cases hpass : simplifyPass (qualifyingPairs g) (g, t, []) with
    | error e =>
      constructor
      · intro out hout
        cases hout
      · intro er her
        cases her
        exact (simplifyPass_nsl _ _ h).2 e hpass
    | ok st' =>
      exact ih st'.1 st'.2.1 ((simplifyPass_nsl _ _ h).1 st' hpass)

/-- **C7** (amended): neither simplifier variant ever produces a
self-loop edge — `contracted_edge` is called with `self_loops=False` and
no other operation adds edges — and this holds for `simplify` on its
crash paths too; the bijection half of the original claim fails:
`collapse_convex_intersections` never reads or writes the BSP tree, so
each contraction it performs breaks the leaf ↔ node bijection when the
tree is present (see the counterexample). -/
theorem C7_no_self_loops (K : PolyKernel π) (g : Graph π) (t : TTree π)
    (fuel : ℕ) (h : NoSelfLoops g) :
    NoSelfLoops (collapseConvexIntersections K g) ∧
    (∀ out, simplifyLoop fuel g t = .ok out → NoSelfLoops out.1) ∧
    (∀ er, simplifyLoop fuel g t = .error er → NoSelfLoops er.1) :=
  ⟨collapse_foldl_nsl K _ (g, []) h,
   (simplifyLoop_nsl fuel g t h).1, (simplifyLoop_nsl fuel g t h).2⟩

/-- A trivial kernel over natural-number handles. -/
def K7 : PolyKernel ℕ :=
  { inter := fun _ _ => 0
    dim := fun _ => 2
    verts := fun _ => []
    hull := fun _ _ => 0
    center := fun _ => ⟨0, 0, 0⟩
    dummy := 0 }

/-- Two same-occupancy cells joined by a `convex_intersection` edge. -/
def G7 : Graph ℕ :=
  { nodes := [⟨1, 1, 0, []⟩, ⟨2, 1, 0, []⟩]
    edges := [{ u := 1, v := 2, intersection := none, vertices := none,
                supporting_plane := ⟨0, 0, 1, 0⟩, convex_intersection := true,
                processed := false }] }

/-- The matching BSP tree: a root with the two cells as leaf children. -/
def T7 : TTree ℕ :=
  [⟨0, none, some 0, []⟩, ⟨1, some 0, some 0, []⟩, ⟨2, some 0, some 0, []⟩]

/-- **C7** (counterexample): before `collapse_convex_intersections` the
tree leaves `{1, 2}` biject with the graph nodes; the collapse contracts
node 2 into node 1 but leaves the tree untouched, so the bijection fails
afterwards. -/
theorem C7_counterexample :
    (leavesIds T7).toFinset = (nodeIds G7).toFinset ∧
    (leavesIds T7).toFinset ≠
      (nodeIds (collapseConvexIntersections K7 G7)).toFinset := by
  decide

/-- Witness for C7 at the concrete complex `(G7, T7)`. -/
theorem C7_no_self_loops_witness :
    NoSelfLoops (collapseConvexIntersections K7 G7) ∧
    (∀ out, simplifyLoop 3 G7 T7 = .ok out → NoSelfLoops out.1) ∧
    (∀ er, simplifyLoop 3 G7 T7 = .error er → NoSelfLoops er.1) :=
  C7_no_self_loops K7 G7 T7 3 (by intro e he; simp [G7] at he; subst he; decide)

end C7

section C9

/-! ## C9: duplicate projected angles during facet ordering
(complex.py lines 182–199 and 263–312)

`_sort_vertex_indices_by_angle` projects the facet corners to the
supporting plane and orders them by `arctan2` angle around the centroid;
when two corners share an angle it prints a warning and returns `None`.
`extract_soup` then runs `assert(len(intersection_points) ==
len(correct_order))`: `len(None)` raises `TypeError`, so the whole
extraction aborts — no facet is skipped.  The float angle computation is
an external collaborator, modelled as a function parameter `radFn` from
the supporting plane and the corner list to the angle list; the
float-based polygon orientation test is likewise a parameter
`orientFn`. -/

/-- `np.argsort`: indices in order of ascending value (stable). -/
def argsort (rads : List ℚ) : List ℕ :=
  (rads.enum.mergeSort fun a b => decide (a.2 ≤ b.2)).map fun p => p.1

/-- `_sort_vertex_indices_by_angle(points, plane)`: `none` exactly when
two projected points share an angle (the printed warning accompanies the
`None` return). -/
def sortVertexIndicesByAngle (radFn : Plane ℚ → List (V3 ℚ) → List ℚ)
    (pl : Plane ℚ) (pts : List (V3 ℚ)) : Option (List ℕ) :=
  if (radFn pl pts).Nodup then some (argsort (radFn pl pts)) else none

/-- One edge of `extract_soup`'s loop: skip same-occupancy edges, gather
the facet corners, order them by angle (`None` → the `assert` line's
`len(None)` raises `TypeError`, modelled as `Except.error`), drop facets
with fewer than 3 corners, orient, and append the points and the face
index row (`np.arange(len) + n_points`). -/
def soupStep (K : PolyKernel π) (orientFn : List (V3 ℚ) → V3 ℚ → Bool)
    (radFn : Plane ℚ → List (V3 ℚ) → List ℚ) (g : Graph π)
    (acc : List (V3 ℚ) × List (List ℕ)) (e : GEdge π) :
    Except String (List (V3 ℚ) × List (List ℕ)) :=
  if occOf g e.u = occOf g e.v then .ok acc
  else
    match sortVertexIndicesByAngle radFn e.supporting_plane
        (getIntersection K g e.u e.v) with
    | none => .error "TypeError: object of type NoneType has no len()"
    | some ord =>
      let pts2 := ord.map fun i => (getIntersection K g e.u e.v).getD i ⟨0, 0, 0⟩
      if pts2.length < 3 then .ok acc
      else
        let outside := if occOf g e.v ≠ 0 then K.center (convexOf K g e.u)
                       else K.center (convexOf K g e.v)
        let pts3 := if orientFn pts2 outside then pts2.reverse else pts2
        .ok (acc.1 ++ pts3,
             acc.2 ++ [(List.range pts3.length).map fun j => j + acc.1.length])

/-- `extract_soup` up to the final file write: the point soup and the face
rows, or the uncaught `TypeError`. -/
def extractSoup (K : PolyKernel π) (orientFn : List (V3 ℚ) → V3 ℚ → Bool)
    (radFn : Plane ℚ → List (V3 ℚ) → List ℚ) (g : Graph π) :
    Except String (List (V3 ℚ) × List (List ℕ)) :=
  g.edges.foldlM (soupStep K orientFn radFn g) ([], [])

theorem sortVertexIndicesByAngle_some {radFn : Plane ℚ → List (V3 ℚ) → List ℚ}
    {pl : Plane ℚ} {pts : List (V3 ℚ)} {ord : List ℕ}
    (h : sortVertexIndicesByAngle radFn pl pts = some ord) :
    (radFn pl pts).Nodup := by
  unfold sortVertexIndicesByAngle at h
  split at h
  · assumption
  · cases h

theorem soupStep_ok_nodup (K : PolyKernel π)
    (orientFn : List (V3 ℚ) → V3 ℚ → Bool)
    (radFn : Plane ℚ → List (V3 ℚ) → List ℚ) (g : Graph π)
    {acc out : List (V3 ℚ) × List (List ℕ)} {e : GEdge π}
    (h : soupStep K orientFn radFn g acc e = .ok out)
    (hocc : occOf g e.u ≠ occOf g e.v) :
    (radFn e.supporting_plane (getIntersection K g e.u e.v)).Nodup := by
  unfold soupStep at h
  rw [if_neg hocc] at h
  cases hs : sortVertexIndicesByAngle radFn e.supporting_plane
      (getIntersection K g e.u e.v) with
  | none =>
    rw [hs] at h
    cases h
  | some ord =>
    exact sortVertexIndicesByAngle_some hs

theorem extractSoup_aux (K : PolyKernel π)
    (orientFn : List (V3 ℚ) → V3 ℚ → Bool)
    (radFn : Plane ℚ → List (V3 ℚ) → List ℚ) (g : Graph π) :
    ∀ (es : List (GEdge π)) (acc out : List (V3 ℚ) × List (List ℕ)),
      es.foldlM (soupStep K orientFn radFn g) acc = .ok out →
      ∀ e ∈ es, occOf g e.u ≠ occOf g e.v →
        (radFn e.supporting_plane (getIntersection K g e.u e.v)).Nodup := by
  intro es
  induction es with
  | nil =>
    intro acc out _ e he
    cases he
  | cons e0 es ih =>
    intro acc out h e he hocc
    rw [List.foldlM_cons] at h
    cases hstep : soupStep K orientFn radFn g acc e0 with
    | error s =>
      rw [hstep] at h
      cases h
    | ok acc' =>
      rw [hstep] at h
      rcases List.mem_cons.mp he with rfl | he'
      · exact soupStep_ok_nodup K orientFn radFn g hstep hocc
      · exact ih acc' out h e he' hocc

/-- **C9** (amended): when two projected corners of a boundary facet
share a polar angle, `_sort_vertex_indices_by_angle` prints its warning
and returns `None`, and `extract_soup`'s `assert(len(...) ==
len(correct_order))` line then raises `TypeError` (`len(None)`): the
extraction aborts instead of skipping the facet.  Equivalently, whenever
`extract_soup` completes, every boundary facet it visited had pairwise
distinct projected angles. -/
theorem C9_extract_soup_duplicate_angle (K : PolyKernel π)
    (orientFn : List (V3 ℚ) → V3 ℚ → Bool)
    (radFn : Plane ℚ → List (V3 ℚ) → List ℚ) (g : Graph π)
    (out : List (V3 ℚ) × List (List ℕ)) (e : GEdge π) (he : e ∈ g.edges)
    (hocc : occOf g e.u ≠ occOf g e.v)
    (hok : extractSoup K orientFn radFn g = .ok out) :
    (radFn e.supporting_plane (getIntersection K g e.u e.v)).Nodup :=
  extractSoup_aux K orientFn radFn g g.edges ([], []) out hok e he hocc

/-- A trivial kernel for the C9 instances. -/
def K9 : PolyKernel ℕ :=
  { inter := fun _ _ => 0
    dim := fun _ => 2
    verts := fun _ => []
    hull := fun _ _ => 0
    center := fun _ => ⟨0, 0, 0⟩
    dummy := 0 }

/-- An angle oracle under which every projected corner gets angle 0 —
the duplicate-angle situation of the claim. -/
def rad9 : Plane ℚ → List (V3 ℚ) → List ℚ :=
  fun _ pts => pts.map fun _ => 0

/-- An orientation oracle (never consulted on the counterexample). -/
def orient9 : List (V3 ℚ) → V3 ℚ → Bool := fun _ _ => false

/-- Two boundary facets; the first hits the duplicate-angle case, so a
skip-and-continue extractor would still emit the second facet. -/
def G9 : Graph ℕ :=
  { nodes := [⟨0, 0, 0, []⟩, ⟨1, 1, 0, []⟩, ⟨2, 0, 0, []⟩]
    edges := [{ u := 0, v := 1, intersection := none,
                vertices := some [⟨0, 0, 0⟩, ⟨1, 0, 0⟩],
                supporting_plane := ⟨0, 0, 1, 0⟩, convex_intersection := false,
                processed := false },
              { u := 2, v := 1, intersection := none,
                vertices := some [⟨0, 0, 0⟩, ⟨1, 0, 0⟩, ⟨0, 1, 0⟩],
                supporting_plane := ⟨0, 0, 1, 0⟩, convex_intersection := false,
                processed := false }] }

/-- **C9** (counterexample): on `G9` the first boundary facet has a
duplicate projected angle; `extract_soup` raises `TypeError` and produces
nothing — it does not continue with the remaining facet. -/
theorem C9_counterexample :
    extractSoup K9 orient9 rad9 G9 =
      .error "TypeError: object of type NoneType has no len()" := by
  rfl

/-- An angle oracle assigning each corner its x-coordinate. -/
def rad9w : Plane ℚ → List (V3 ℚ) → List ℚ :=
  fun _ pts => pts.map fun v => v.x

/-- A one-corner boundary facet: the ordering succeeds and the facet is
dropped by the `< 3` test, so the extraction completes. -/
def G9w : Graph ℕ :=
  { nodes := [⟨0, 0, 0, []⟩, ⟨1, 1, 0, []⟩]
    edges := [{ u := 0, v := 1, intersection := none,
                vertices := some [⟨0, 0, 0⟩],
                supporting_plane := ⟨0, 0, 1, 0⟩, convex_intersection := false,
                processed := false }] }

/-- The single edge of `G9w`. -/
def e9w : GEdge ℕ :=
  { u := 0, v := 1, intersection := none, vertices := some [⟨0, 0, 0⟩],
    supporting_plane := ⟨0, 0, 1, 0⟩, convex_intersection := false,
    processed := false }

theorem extractSoup_G9w_ok : extractSoup K9 orient9 rad9w G9w = .ok ([], []) := by
  simp [extractSoup, G9w, soupStep, occOf, findNode, K9, rad9w, getIntersection,
    findEdge, edgeMatches, sortVertexIndicesByAngle, argsort, List.mergeSort,
    List.dedup, List.foldlM, List.find?, List.enum, List.enumFrom]

/-- Witness for C9: the amended theorem instantiated on the completing
run over `G9w`. -/
theorem C9_extract_soup_duplicate_angle_witness :
    e9w ∈ G9w.edges ∧ occOf G9w e9w.u ≠ occOf G9w e9w.v ∧
    extractSoup K9 orient9 rad9w G9w = .ok ([], []) ∧
    (rad9w e9w.supporting_plane (getIntersection K9 G9w e9w.u e9w.v)).Nodup :=
  ⟨by decide, by decide, extractSoup_G9w_ok,
   C9_extract_soup_duplicate_angle K9 orient9 rad9w G9w ([], []) e9w
     (by decide) (by decide) extractSoup_G9w_ok⟩

end C9

section C8

/-! ## C8: `_orient_exact_polygon` vs `_orient_inexact_polygon`
(complex.py lines 201–241)

Both helpers scan consecutive point triples until the component sum of
the cross product is non-zero, then test the sign of the dot product with
the direction towards the outside reference point.  The exact helper
works on Sage rational vectors; the inexact helper first normalizes every
vector with `np.linalg.norm`.  Floats are idealized as real numbers
(division by a zero norm follows Lean's `x / 0 = 0` convention, where
numpy would produce `nan`); both loops are fuel-indexed, `none` standing
for fuel exhaustion or an out-of-range `points[i]` access (a Python
`IndexError`), which the two helpers hit in the same iteration. -/

/-- Rational 3-vector difference (`points[j] - points[i]`). -/
def vsub (u v : V3 ℚ) : V3 ℚ := ⟨u.x - v.x, u.y - v.y, u.z - v.z⟩

/-- Rational cross product (Sage `cross_product`). -/
def vcross (u v : V3 ℚ) : V3 ℚ :=
  ⟨u.y * v.z - u.z * v.y, u.z * v.x - u.x * v.z, u.x * v.y - u.y * v.x⟩

/-- Rational dot product (Sage `dot_product`). -/
def vdot (u v : V3 ℚ) : ℚ := u.x * v.x + u.y * v.y + u.z * v.z

/-- `np.sum` of a rational 3-vector. -/
def vsum (u : V3 ℚ) : ℚ := u.x + u.y + u.z

/-- Real 3-vector difference. -/
def vsubR (u v : V3 ℝ) : V3 ℝ := ⟨u.x - v.x, u.y - v.y, u.z - v.z⟩

/-- Real cross product (`np.cross`). -/
def vcrossR (u v : V3 ℝ) : V3 ℝ :=
  ⟨u.y * v.z - u.z * v.y, u.z * v.x - u.x * v.z, u.x * v.y - u.y * v.x⟩

/-- Real dot product (`np.dot`). -/
def vdotR (u v : V3 ℝ) : ℝ := u.x * v.x + u.y * v.y + u.z * v.z

/-- `np.sum` of a real 3-vector. -/
def vsumR (u : V3 ℝ) : ℝ := u.x + u.y + u.z

/-- Componentwise division by a scalar (`v / np.linalg.norm(v)`). -/
noncomputable def vdivR (u : V3 ℝ) (s : ℝ) : V3 ℝ := ⟨u.x / s, u.y / s, u.z / s⟩

/-- `np.linalg.norm`: the Euclidean norm. -/
noncomputable def normR (u : V3 ℝ) : ℝ := Real.sqrt (vdotR u u)

/-- Embedding of the rational points into the real (idealized-float)
ones. -/
def castV (v : V3 ℚ) : V3 ℝ := ⟨(v.x : ℝ), (v.y : ℝ), (v.z : ℝ)⟩

/-- The triple-scanning loop of `_orient_exact_polygon`: at index `i`
compute `cross = (points[i+1]-points[i]) × (points[i+2]-points[i])`,
advance while `np.sum(cross) == 0`, and return the exiting cross product
with the incremented index. -/
def orientExactLoop (pts : List (V3 ℚ)) : ℕ → ℕ → Option (V3 ℚ × ℕ)
  | 0, _ => none
  | fuel + 1, i =>
    match pts[i]?, pts[i + 1]?, pts[i + 2]? with
    | some p0, some p1, some p2 =>
      if vsum (vcross (vsub p1 p0) (vsub p2 p0)) = 0 then
        orientExactLoop pts fuel (i + 1)
      else some (vcross (vsub p1 p0) (vsub p2 p0), i + 1)
    | _, _, _ => none

/-- `_orient_exact_polygon(points, outside)`. -/
def orientExact (pts : List (V3 ℚ)) (outside : V3 ℚ) (fuel : ℕ) : Option Bool :=
  match orientExactLoop pts fuel 0 with
  | none => none
  | some (cross, i) =>
    match pts[i]? with
    | none => none
    | some pi => some (decide (vdot cross (vsub outside pi) < 0))

/-- The triple-scanning loop of `_orient_inexact_polygon`: the same scan
with every difference vector normalized before the cross product. -/
noncomputable def orientInexactLoop (pts : List (V3 ℝ)) : ℕ → ℕ → Option (V3 ℝ × ℕ)
  | 0, _ => none
  | fuel + 1, i =>
    match pts[i]?, pts[i + 1]?, pts[i + 2]? with
    | some p0, some p1, some p2 =>
      if vsumR (vcrossR (vdivR (vsubR p1 p0) (normR (vsubR p1 p0)))
          (vdivR (vsubR p2 p0) (normR (vsubR p2 p0)))) = 0 then
        orientInexactLoop pts fuel (i + 1)
      else
        some (vcrossR (vdivR (vsubR p1 p0) (normR (vsubR p1 p0)))
          (vdivR (vsubR p2 p0) (normR (vsubR p2 p0))), i + 1)
    | _, _, _ => none

/-- `_orient_inexact_polygon(points, outside)`: the exiting cross product
and the outside direction are both normalized before the sign test. -/
noncomputable def orientInexact (pts : List (V3 ℝ)) (outside : V3 ℝ) (fuel : ℕ) :
    Option Bool :=
  match orientInexactLoop pts fuel 0 with
  | none => none
  | some (cross, i) =>
    match pts[i]? with
    | none => none
    | some pi =>
      some (decide (vdotR (vdivR cross (normR cross))
        (vdivR (vsubR outside pi) (normR (vsubR outside pi))) < 0))

theorem castV_sub (u v : V3 ℚ) : castV (vsub u v) = vsubR (castV u) (castV v) := by
  simp [castV, vsub, vsubR]

theorem castV_cross (u v : V3 ℚ) :
    castV (vcross u v) = vcrossR (castV u) (castV v) := by
  simp [castV, vcross, vcrossR]

theorem castV_vdot (u v : V3 ℚ) :
    ((vdot u v : ℚ) : ℝ) = vdotR (castV u) (castV v) := by
  simp [castV, vdot, vdotR]

theorem castV_vsum (u : V3 ℚ) : ((vsum u : ℚ) : ℝ) = vsumR (castV u) := by
  simp [castV, vsum, vsumR]

theorem castV_eq_zero {u : V3 ℚ} : castV u = ⟨0, 0, 0⟩ ↔ u = ⟨0, 0, 0⟩ := by
  cases u
  simp [castV, V3.mk.injEq]

theorem normR_nonneg (u : V3 ℝ) : 0 ≤ normR u := Real.sqrt_nonneg _

theorem normR_eq_zero {u : V3 ℝ} : normR u = 0 ↔ u = ⟨0, 0, 0⟩ := by
  unfold normR vdotR
  rw [Real.sqrt_eq_zero']
  cases u with
  | mk x y z =>
    simp only [V3.mk.injEq]
    constructor
    · intro h
      refine ⟨?_, ?_, ?_⟩ <;> nlinarith [sq_nonneg x, sq_nonneg y, sq_nonneg z]
    · rintro ⟨rfl, rfl, rfl⟩
      norm_num

theorem vdivR_zero_den (u : V3 ℝ) : vdivR u 0 = ⟨0, 0, 0⟩ := by
  simp [vdivR]

theorem vdivR_eq_zero {u : V3 ℝ} {s : ℝ} (hs : s ≠ 0) :
    vdivR u s = ⟨0, 0, 0⟩ ↔ u = ⟨0, 0, 0⟩ := by
  cases u with
  | mk x y z => simp [vdivR, V3.mk.injEq, div_eq_zero_iff, hs]

theorem vcrossR_div (a b : V3 ℝ) (s t : ℝ) :
    vcrossR (vdivR a s) (vdivR b t) = vdivR (vcrossR a b) (s * t) := by
  simp only [vcrossR, vdivR, V3.mk.injEq]
  refine ⟨?_, ?_, ?_⟩ <;> rw [div_mul_div_comm, div_mul_div_comm, div_sub_div_same]

theorem vdotR_div (u v : V3 ℝ) (s t : ℝ) :
    vdotR (vdivR u s) (vdivR v t) = vdotR u v / (s * t) := by
  simp only [vdotR, vdivR]
  rw [div_mul_div_comm, div_mul_div_comm, div_mul_div_comm, div_add_div_same,
    div_add_div_same]

theorem vdivR_div (u : V3 ℝ) (s t : ℝ) :
    vdivR (vdivR u s) t = vdivR u (s * t) := by
  simp [vdivR, div_div]

theorem vsumR_div (u : V3 ℝ) (s : ℝ) : vsumR (vdivR u s) = vsumR u / s := by
  simp only [vsumR, vdivR]
  rw [div_add_div_same, div_add_div_same]

theorem vcross_zero_left (b : V3 ℚ) : vcross ⟨0, 0, 0⟩ b = ⟨0, 0, 0⟩ := by
  simp [vcross]

theorem vcross_zero_right (a : V3 ℚ) : vcross a ⟨0, 0, 0⟩ = ⟨0, 0, 0⟩ := by
  simp [vcross]

theorem vdot_zero_right (a : V3 ℚ) : vdot a ⟨0, 0, 0⟩ = 0 := by
  simp [vdot]

theorem vdot_zero_left (b : V3 ℚ) : vdot ⟨0, 0, 0⟩ b = 0 := by
  simp [vdot]

theorem vsub_eq_zero_sub {u v : V3 ℚ} (h : vsub u v = ⟨0, 0, 0⟩) : u = v := by
  cases u with
  | mk a b c =>
    cases v with
    | mk d e f =>
      simp only [vsub, V3.mk.injEq, sub_eq_zero] at h
      simp [V3.mk.injEq, h.1, h.2.1, h.2.2]

/-- The inexact step's cross product is the exact one divided by the
product of the two norms. -/
theorem inexact_cross_eq (p0 p1 p2 : V3 ℚ) :
    vcrossR (vdivR (vsubR (castV p1) (castV p0)) (normR (vsubR (castV p1) (castV p0))))
        (vdivR (vsubR (castV p2) (castV p0)) (normR (vsubR (castV p2) (castV p0)))) =
      vdivR (castV (vcross (vsub p1 p0) (vsub p2 p0)))
        (normR (castV (vsub p1 p0)) * normR (castV (vsub p2 p0))) := by
  rw [← castV_sub, ← castV_sub, vcrossR_div, ← castV_cross]

/-- The two loop conditions agree: the normalized step cross product has
zero component sum exactly when the exact one does. -/
theorem sum_cond (p0 p1 p2 : V3 ℚ) :
    vsumR (vcrossR (vdivR (vsubR (castV p1) (castV p0))
          (normR (vsubR (castV p1) (castV p0))))
        (vdivR (vsubR (castV p2) (castV p0))
          (normR (vsubR (castV p2) (castV p0))))) = 0 ↔
      vsum (vcross (vsub p1 p0) (vsub p2 p0)) = 0 := by
  rw [inexact_cross_eq, vsumR_div, ← castV_vsum]
  by_cases hm : normR (castV (vsub p1 p0)) * normR (castV (vsub p2 p0)) = 0
  · rw [hm, div_zero]
    rcases mul_eq_zero.mp hm with h1 | h1
    · have : vsub p1 p0 = ⟨0, 0, 0⟩ := castV_eq_zero.mp (normR_eq_zero.mp h1)
      rw [this, vcross_zero_left]
      simp [vsum]
    · have : vsub p2 p0 = ⟨0, 0, 0⟩ := castV_eq_zero.mp (normR_eq_zero.mp h1)
      rw [this, vcross_zero_right]
      simp [vsum]
  · rw [div_eq_zero_iff]
    simp [hm, Rat.cast_eq_zero]

/-- Both scans step in lockstep: they abort together, and at a common
exit the inexact cross product is the exact one scaled by a positive
factor. -/
theorem orientLoop_equiv (pts : List (V3 ℚ)) : ∀ (fuel i : ℕ),
    (orientExactLoop pts fuel i = none →
      orientInexactLoop (pts.map castV) fuel i = none) ∧
    ∀ cross j, orientExactLoop pts fuel i = some (cross, j) →
      ∃ s : ℝ, 0 < s ∧
        orientInexactLoop (pts.map castV) fuel i = some (vdivR (castV cross) s, j) := by
  intro fuel
  induction fuel with
  | zero =>
    intro i
    refine ⟨fun _ => rfl, fun cross j h => ?_⟩
    simp [orientExactLoop] at h
  | succ fuel ih =>
    intro i
    cases hp0 : pts[i]? with
    | none =>
      constructor
      · intro _
        simp [orientInexactLoop, List.getElem?_map, hp0]
      · intro cross j h
        simp [orientExactLoop, hp0] at h
    | some p0 =>
      cases hp1 : pts[i + 1]? with
      | none =>
        constructor
        · intro _
          simp [orientInexactLoop, List.getElem?_map, hp0, hp1]
        · intro cross j h
          simp [orientExactLoop, hp0, hp1] at h
      | some p1 =>
        cases hp2 : pts[i + 2]? with
        | none =>
          constructor
          · intro _
            simp [orientInexactLoop, List.getElem?_map, hp0, hp1, hp2]
          · intro cross j h
            simp [orientExactLoop, hp0, hp1, hp2] at h
        | some p2 =>
          by_cases hc : vsum (vcross (vsub p1 p0) (vsub p2 p0)) = 0
          · have e_eq : orientExactLoop pts (fuel + 1) i =
                orientExactLoop pts fuel (i + 1) := by
              simp [orientExactLoop, hp0, hp1, hp2, hc]
            have i_eq : orientInexactLoop (pts.map castV) (fuel + 1) i =
                orientInexactLoop (pts.map castV) fuel (i + 1) := by
              have hcond := (sum_cond p0 p1 p2).mpr hc
              simp [orientInexactLoop, List.getElem?_map, hp0, hp1, hp2, hcond]
            rw [e_eq, i_eq]
            exact ih (i + 1)
          · have hcond : ¬ vsumR (vcrossR
                (vdivR (vsubR (castV p1) (castV p0))
                  (normR (vsubR (castV p1) (castV p0))))
                (vdivR (vsubR (castV p2) (castV p0))
                  (normR (vsubR (castV p2) (castV p0))))) = 0 :=
              fun h => hc ((sum_cond p0 p1 p2).mp h)
            have e_eq : orientExactLoop pts (fuel + 1) i =
                some (vcross (vsub p1 p0) (vsub p2 p0), i + 1) := by
              simp [orientExactLoop, hp0, hp1, hp2, hc]
            have i_eq : orientInexactLoop (pts.map castV) (fuel + 1) i =
                some (vdivR (castV (vcross (vsub p1 p0) (vsub p2 p0)))
                  (normR (castV (vsub p1 p0)) * normR (castV (vsub p2 p0))), i + 1) := by
              have hcond' : ¬ vsumR (vdivR (castV (vcross (vsub p1 p0) (vsub p2 p0)))
                  (normR (castV (vsub p1 p0)) * normR (castV (vsub p2 p0)))) = 0 :=
                fun hf => hcond (by rw [inexact_cross_eq]; exact hf)
              simp only [orientInexactLoop, List.getElem?_map, hp0, hp1, hp2,
                Option.map_some', inexact_cross_eq]
              rw [if_neg hcond']
            constructor
            · intro h
              rw [e_eq] at h
              cases h
            · intro cross j h
              rw [e_eq] at h
              cases h
              refine ⟨normR (castV (vsub p1 p0)) * normR (castV (vsub p2 p0)), ?_, i_eq⟩
              rcases lt_or_eq_of_le (mul_nonneg (normR_nonneg _) (normR_nonneg _))
                with hlt | heq
              · exact hlt
              · exfalso
                apply hcond
                rw [inexact_cross_eq, ← heq, vdivR_zero_den]
                simp [vsumR]

/-- **C8**: on idealized-float (real) arithmetic the two orientation
helpers agree on every input and every fuel bound — they abort together
(same `IndexError`/non-termination behaviour) and otherwise return the
same boolean, because normalization only rescales each cross and dot
product by a nonnegative factor and a zero factor forces both sign tests
to `False`. -/
theorem C8_orient_equivalence (pts : List (V3 ℚ)) (outside : V3 ℚ) (fuel : ℕ) :
    orientInexact (pts.map castV) (castV outside) fuel = orientExact pts outside fuel := by
  unfold orientInexact orientExact
  obtain ⟨hnone, hsome⟩ := orientLoop_equiv pts fuel 0
  cases hex : orientExactLoop pts fuel 0 with
  | none => rw [hnone hex]
  | some pr =>
    obtain ⟨cross, j⟩ := pr
    obtain ⟨s, hs, hin⟩ := hsome cross j hex
    rw [hin]
    cases hpj : pts[j]? with
    | none =>
      simp [List.getElem?_map, hpj]
    | some pj =>
      simp only [List.getElem?_map, hpj, Option.map_some']
      congr 1
      rw [decide_eq_decide]
      rw [vdivR_div, ← castV_sub, vdotR_div, ← castV_vdot]
      have hn1 : 0 ≤ normR (vdivR (castV cross) s) := normR_nonneg _
      have hn2 : 0 ≤ normR (castV (vsub outside pj)) := normR_nonneg _
      rcases lt_or_eq_of_le (mul_nonneg (mul_nonneg (le_of_lt hs) hn1) hn2)
        with hD | hD
      · rw [div_lt_iff₀ hD, zero_mul]
        exact Rat.cast_lt_zero
      · rw [← hD, div_zero]
        have hdq : vdot cross (vsub outside pj) = 0 := by
          rcases mul_eq_zero.mp hD.symm with h1 | h1
          · rcases mul_eq_zero.mp h1 with h2 | h2
            · exact absurd h2 (ne_of_gt hs)
            · have hcz : castV cross = ⟨0, 0, 0⟩ :=
                (vdivR_eq_zero (ne_of_gt hs)).mp (normR_eq_zero.mp h2)
              rw [castV_eq_zero.mp hcz, vdot_zero_left]
          · have hcz : vsub outside pj = ⟨0, 0, 0⟩ :=
              castV_eq_zero.mp (normR_eq_zero.mp h1)
            rw [hcz, vdot_zero_right]
        rw [hdq]
        simp

end C8

end Abspy
